import Mathlib

/-!
# A verification model of the qgrep pack builder and change watcher

This file is a shallow embedding of the chunking / index / pack-writing core
of `src/build.cpp` and of the pack-metadata reader and startup diff of
`src/watch.cpp`, together with theorems that settle the specification's
claims about them.

Modelling conventions:
* C++ `char` bytes are `Nat` values (`'\n'` is `10`); buffers are `List Nat`.
* `size_t` / `uint32_t` / `uint64_t` counters are `Nat`; where a value is
  stored into a fixed-width on-disk field, the serializer truncates
  (little-endian byte extraction).
* The build-time constant `kChunkSize` lives in `constants.hpp`, which is not
  part of the two sources; all builder functions therefore take the chunk
  size as an explicit parameter `size` (the spec fixes only a typical range,
  512 KiB - 1 MiB).
* External collaborators (LZ4-HC, `bloomFilterUpdate`, file I/O) are out of
  scope per the spec; where one of their values is needed it is modelled
  from the spec's words, marked `Modelled from the spec:`.
-/

set_option linter.unusedVariables false
set_option linter.unnecessarySimpa false

namespace Qgrep

/-- A byte of file content; newline is byte 10. -/
abbrev Byte := Nat

/-- Number of newline bytes in a buffer. -/
def countNl : List Byte → Nat
  | [] => 0
  | b :: rest => (if b = 10 then 1 else 0) + countNl rest

/-- Index of the first newline in a buffer, if any (the search performed by
the loop in `skipOneLine`, build.cpp:199-206). -/
def firstNlIdx : List Byte → Option Nat
  | [] => none
  | b :: rest => if b = 10 then some 0 else (firstNlIdx rest).map (· + 1)

/-- Index of the last newline in a buffer, if any (the position remembered by
the loop in `skipByLines`, build.cpp:185-197). -/
def lastNlIdx : List Byte → Option Nat
  | [] => none
  | b :: rest =>
    match lastNlIdx rest with
    | some i => some (i + 1)
    | none => if b = 10 then some 0 else none

/-- `Blob` (build.cpp:133-157): a view `(offset, count)` into shared storage,
so that splitting a file into a prefix and a remainder copies no bytes. -/
structure Blob where
  storage : List Byte
  offset : Nat
  count : Nat
deriving DecidableEq, Repr

/-- `Blob::size()`: the count field. -/
def Blob.size (b : Blob) : Nat := b.count

/-- The bytes `data()[0..count)` of the view. -/
def Blob.data (b : Blob) : List Byte := (b.storage.drop b.offset).take b.count

/-- The `Blob(std::vector<char>)` constructor: whole-buffer view. -/
def Blob.ofList (s : List Byte) : Blob := ⟨s, 0, s.length⟩

/-- A blob is well formed when its view lies inside its storage (the
`assert(offset + count <= storage->size())` of `Blob::data`). -/
def Blob.wf (b : Blob) : Prop := b.offset + b.count ≤ b.storage.length

instance (b : Blob) : Decidable b.wf := by unfold Blob.wf; infer_instance

/-- `File` (build.cpp:159-167): one pending fragment of a source file. -/
structure File where
  name : List Byte
  contents : Blob
  startLine : Nat
  fileSize : Nat
  timeStamp : Nat
deriving DecidableEq, Repr

def File.wf (f : File) : Prop := f.contents.wf

instance (f : File) : Decidable f.wf := by unfold File.wf; infer_instance

/-- `Chunk` (build.cpp:169-177): files gathered for one chunk plus their
cumulative content byte count. -/
structure Chunk where
  files : List File
  totalSize : Nat
deriving DecidableEq, Repr

def emptyChunk : Chunk := ⟨[], 0⟩

/-- `skipByLines(data, dataSize)` (build.cpp:185-197): scans the first
`dataSize` bytes; returns (one past the last newline, number of newlines
seen), or `(0, 0)` when the window holds no newline. -/
def skipByLines (data : List Byte) (dataSize : Nat) : Nat × Nat :=
  match lastNlIdx (data.take dataSize) with
  | some i => (i + 1, countNl (data.take dataSize))
  | none => (0, 0)

/-- `skipOneLine(data, dataSize)` (build.cpp:199-206): one past the first
newline among the first `dataSize` bytes, or `dataSize` when there is none. -/
def skipOneLine (data : List Byte) (dataSize : Nat) : Nat :=
  match firstNlIdx (data.take dataSize) with
  | some i => i + 1
  | none => dataSize

/-- `splitPrefix(file, size)` (build.cpp:208-218): returns the prefix fragment
of `size` bytes and mutates `file` into the remainder; modelled as the pair
(prefix, remainder). Both alias the same storage. -/
def splitPrefix (file : File) (size : Nat) : File × File :=
  ({file with contents := ⟨file.contents.storage, file.contents.offset, size⟩},
   {file with contents :=
      ⟨file.contents.storage, file.contents.offset + size, file.contents.count - size⟩})

/-- `appendChunkFile` (build.cpp:220-224). -/
def appendChunkFile (chunk : Chunk) (file : File) : Chunk :=
  ⟨chunk.files ++ [file], chunk.totalSize + file.contents.size⟩

/-- `appendChunkFilePrefix(chunk, file, remainingSize)` (build.cpp:226-245):
split `file` on a line boundary within the remaining budget; when no newline
fits and the chunk is empty, take the whole first line anyway.  Returns the
updated chunk and the (possibly unchanged) remainder of `file`. -/
def appendChunkFilePrefix (chunk : Chunk) (file : File) (remainingSize : Nat) :
    Chunk × File :=
  let data := file.contents.data
  let dataSize := file.contents.size
  let skip := skipByLines data remainingSize
  if skip.1 > 0 ∨ chunk.files = [] then
    let skipSize := if skip.1 > 0 then skip.1 else skipOneLine data dataSize
    let skipLines := if skip.1 > 0 then skip.2 else 1
    let split := splitPrefix file skipSize
    (⟨chunk.files ++ [split.1], chunk.totalSize + skipSize⟩,
     {split.2 with startLine := split.2.startLine + skipLines})
  else
    (chunk, file)

/-- The while loop of `flushChunk(size_t)` (build.cpp:252-273): pop pending
files while the chunk is under budget; append whole files that fit, split the
first one that does not (pushing its remainder back to the queue front) and
stop. -/
def fillChunk (size : Nat) (chunk : Chunk) : List File → Chunk × List File
  | [] => (chunk, [])
  | file :: rest =>
    if chunk.totalSize < size then
      let remainingSize := size - chunk.totalSize
      if file.contents.size ≤ remainingSize then
        fillChunk size (appendChunkFile chunk file) rest
      else
        let res := appendChunkFilePrefix chunk file remainingSize
        (res.1, res.2 :: rest)
    else
      (chunk, file :: rest)

/-- Content bytes pending in the queue (the quantity the C++ field
`pendingSize` mirrors: it is incremented by `dataSize` on append and
decremented by `chunk.totalSize` on every cut). -/
def sumSizes (pending : List File) : Nat :=
  (pending.map (fun f => f.contents.size)).sum

/-- One call of `flushChunk(size_t)` (build.cpp:247-281): cut one chunk from
the queue, subtract its bytes from `pendingSize`, and emit it unless it is
empty (`flushChunk(const Chunk&)` returns early on an empty chunk,
build.cpp:297). -/
def flushChunkStep (size : Nat) (pending : List File) (pendingSize : Nat) :
    List Chunk × List File × Nat :=
  let res := fillChunk size emptyChunk pending
  ((if res.1.files = [] then [] else [res.1]), res.2, pendingSize - res.1.totalSize)

/-- The body of the while loops of `flushIfNeeded` (build.cpp:111-117,
condition `pendingSize >= kChunkSize * 2`, i.e. `threshold = 2 * size`) and
of `flush` (build.cpp:119-125, condition `pendingSize > 0`, i.e.
`threshold = 1`): cut chunks while `threshold ≤ pendingSize`.  The C++ loop
carries no bound; the model iterates on a fuel counter, which never runs out
while `pendingSize` mirrors `sumSizes pending` and `size > 0`, because every
iteration then either removes content bytes or removes queue entries
(`builderLoop` below passes `pendingSize + pending.length + 1`, proved
sufficient in `builderLoopF_spec`). -/
def builderLoopF (size threshold : Nat) :
    Nat → List File → Nat → List Chunk × List File × Nat
  | 0, pending, pendingSize => ([], pending, pendingSize)
  | fuel + 1, pending, pendingSize =>
    if pendingSize < threshold then ([], pending, pendingSize)
    else
      let step := flushChunkStep size pending pendingSize
      let rest := builderLoopF size threshold fuel step.2.1 step.2.2
      (step.1 ++ rest.1, rest.2.1, rest.2.2)

/-- The while loops of `flushIfNeeded` and `flush`, with enough fuel. -/
def builderLoop (size threshold : Nat) (pending : List File) (pendingSize : Nat) :
    List Chunk × List File × Nat :=
  builderLoopF size threshold (pendingSize + pending.length + 1) pending pendingSize

/-- The builder's mutable state (build.cpp:179-183) plus the chunks emitted
so far (written to the output stream in C++). -/
structure BuilderState where
  pendingFiles : List File
  pendingSize : Nat
  chunks : List Chunk
deriving DecidableEq, Repr

/-- The freshly constructed builder (build.cpp:34-38). -/
def initialBuilder : BuilderState := ⟨[], 0, []⟩

/-- `appendFilePart(path, startLine, data, dataSize, lastWriteTime, fileSize)`
(build.cpp:58-72): enqueue a fragment, then `flushIfNeeded`.  `appendFile`
(build.cpp:89-109) reads and UTF-8-normalizes a file (external collaborators)
and calls this with `startLine = 0`. -/
def appendFilePart (size : Nat) (st : BuilderState) (path : List Byte)
    (startLine : Nat) (data : List Byte) (lastWriteTime fileSize : Nat) :
    BuilderState :=
  let file : File := ⟨path, Blob.ofList data, startLine, fileSize, lastWriteTime⟩
  let pending := st.pendingFiles ++ [file]
  let pendingSize := st.pendingSize + data.length
  let res := builderLoop size (2 * size) pending pendingSize
  ⟨res.2.1, res.2.2, st.chunks ++ res.1⟩

/-- `flush()` (build.cpp:119-125). -/
def flush (size : Nat) (st : BuilderState) : BuilderState :=
  let res := builderLoop size 1 st.pendingFiles st.pendingSize
  ⟨res.2.1, res.2.2, st.chunks ++ res.1⟩

/-- One `appendFilePart` call's arguments. -/
structure AppendOp where
  path : List Byte
  startLine : Nat
  data : List Byte
  lastWriteTime : Nat
  fileSize : Nat
deriving DecidableEq, Repr

/-- A builder run: a sequence of `appendFilePart` calls followed by `flush()`
(the `build → append* → flush` pipeline of spec section 2). -/
def runBuilder (size : Nat) (ops : List AppendOp) : BuilderState :=
  flush size (ops.foldl
    (fun st op =>
      appendFilePart size st op.path op.startLine op.data op.lastWriteTime op.fileSize)
    initialBuilder)

/-! ## The bloom-filter index (build.cpp:366-428) -/

/-- Total name bytes of a chunk (`getChunkNameTotalSize`, build.cpp:305-313). -/
def getChunkNameTotalSize (chunk : Chunk) : Nat :=
  (chunk.files.map (fun f => f.name.length)).sum

/-- Total content bytes of a chunk (`getChunkDataTotalSize`, build.cpp:315-323). -/
def getChunkDataTotalSize (chunk : Chunk) : Nat :=
  (chunk.files.map (fun f => f.contents.size)).sum

/-- `getChunkIndexSize` (build.cpp:366-377): the bloom filter gets
`dataSize / 50` bytes (tuned for a ~5x LZ4 ratio and a ~10% filter), or 0
when that is below 1024. -/
def getChunkIndexSize (chunk : Chunk) : Nat :=
  let dataSize := getChunkDataTotalSize chunk
  let indexSize := dataSize / 50
  if indexSize < 1024 then 0 else indexSize

/-- `getIndexHashIterations(indexSize, itemCount)` (build.cpp:379-387).  The
C++ computes `k = 0.693147181 * m / n` in `double` and truncates the cast;
the model computes the same rational exactly in integer arithmetic:
`k < 1  ↔  693147181 * m < 10^9 * n`, `k > 16  ↔  16 * 10^9 * n < 693147181 * m`,
and the truncating cast is the integer quotient. -/
def getIndexHashIterations (indexSize itemCount : Nat) : Nat :=
  let m := indexSize * 8
  let n := itemCount
  if n = 0 then 1
  else if 693147181 * m < 1000000000 * n then 1
  else if 16 * 1000000000 * n < 693147181 * m then 16
  else 693147181 * m / (1000000000 * n)

/-- Modelled from the spec: `ngram(a, b, c, d)` (declared outside the two
sources) maps a 4-byte window to a 32-bit integer by concatenating the bytes;
the exact stable hash is implementation-defined, and only distinctness of
values matters here. -/
def ngram (a b c d : Byte) : Nat :=
  a % 256 + 256 * (b % 256) + 65536 * (c % 256) + 16777216 * (d % 256)

/-- The window loop of `prepareChunkIndex` (build.cpp:404-414): every 4-byte
window of one file's contents, skipping windows that contain a newline. -/
def slideNgrams : List Byte → List Nat
  | a :: b :: c :: d :: rest =>
    (if a ≠ 10 ∧ b ≠ 10 ∧ c ≠ 10 ∧ d ≠ 10 then [ngram a b c d] else []) ++
      slideNgrams (b :: c :: d :: rest)
  | _ => []

/-- The distinct ngrams of a chunk (the `std::unordered_set` filled in
build.cpp:397-414); `dedup` keeps one copy of each value. -/
def chunkNgrams (chunk : Chunk) : List Nat :=
  ((chunk.files.map (fun f => slideNgrams f.contents.data)).flatten).dedup

/-- `prepareChunkIndex` (build.cpp:389-428): no index for small chunks;
otherwise an `indexSize`-byte filter and the iteration count.  The bits set
by `bloomFilterUpdate` (in `bloom.hpp`, outside the two sources) are not
modelled: the claims concern only the filter's size and iteration count, and
the reader under scrutiny skips the filter bytes. -/
def prepareChunkIndex (chunk : Chunk) : List Byte × Nat :=
  let indexSize := getChunkIndexSize chunk
  if indexSize = 0 then ([], 0)
  else
    let iterations := getIndexHashIterations indexSize (chunkNgrams chunk).length
    (List.replicate indexSize 0, iterations)

/-! ## Chunk payload serialization (build.cpp:325-364) and the on-disk chunk

`format.hpp` is not among the two sources; the layouts of
`DataChunkFileHeader` and `DataChunkHeader` below are modelled from the
spec (section 3: the field lists, little-endian integers) together with the
field types used by `build.cpp` and `watch.cpp`: six 32-bit fields followed
by two 64-bit fields for a file-table entry (40 bytes, no padding), and
seven 32-bit fields for the chunk header. -/

/-- Modelled from the spec: `DataChunkFileHeader` (`FileTableEntry` of spec
section 3), the in-memory form of one file-table entry. -/
structure DataChunkFileHeader where
  nameOffset : Nat
  nameLength : Nat
  dataOffset : Nat
  dataSize : Nat
  startLine : Nat
  reserved : Nat
  fileSize : Nat
  timeStamp : Nat
deriving DecidableEq, Repr

/-- A `uint32_t` as four little-endian memory bytes (truncating, as a store
into the 32-bit field does). -/
def serialize32 (v : Nat) : List Byte :=
  [v % 256, v / 256 % 256, v / 65536 % 256, v / 16777216 % 256]

/-- A `uint64_t` as eight little-endian memory bytes. -/
def serialize64 (v : Nat) : List Byte :=
  serialize32 (v % 4294967296) ++ serialize32 (v / 4294967296 % 4294967296)

/-- The memory bytes of one `DataChunkFileHeader` (what
`reinterpret_cast<DataChunkFileHeader*>` writes at entry `i` of the payload). -/
def serializeEntry (e : DataChunkFileHeader) : List Byte :=
  serialize32 e.nameOffset ++ serialize32 e.nameLength ++
  serialize32 e.dataOffset ++ serialize32 e.dataSize ++
  serialize32 e.startLine ++ serialize32 e.reserved ++
  serialize64 e.fileSize ++ serialize64 e.timeStamp

/-- The entry-building loop of `prepareChunkData` (build.cpp:337-359): entry
`i` records the running name and data offsets, which advance by each file's
name and content length. -/
def chunkEntries : List File → Nat → Nat → List DataChunkFileHeader
  | [], _, _ => []
  | f :: rest, nameOffset, dataOffset =>
    ⟨nameOffset, f.name.length, dataOffset, f.contents.size,
     f.startLine, 0, f.fileSize, f.timeStamp⟩ ::
      chunkEntries rest (nameOffset + f.name.length) (dataOffset + f.contents.size)

/-- `prepareChunkData` (build.cpp:325-364): the uncompressed payload is the
file-table array, then all names concatenated (the first name at offset
`sizeof(DataChunkFileHeader) * fileCount`), then all contents concatenated;
the copy loop writes the three regions exactly contiguously in file order
(checked by the assert in build.cpp:361). -/
def prepareChunkData (chunk : Chunk) : List Byte :=
  let headerSize := 40 * chunk.files.length
  let nameSize := getChunkNameTotalSize chunk
  let entries := chunkEntries chunk.files headerSize (headerSize + nameSize)
  (entries.map serializeEntry).flatten ++
    (chunk.files.map (fun f => f.name)).flatten ++
    (chunk.files.map (fun f => f.contents.data)).flatten

/-- Modelled from the spec: `DataChunkHeader` (`ChunkHeader` of spec section
3).  `compressedSize` is the length of the external LZ4-HC codec's output
(`compressData`, build.cpp:283-293); the codec is out of scope, no claim
depends on the field, and the model stores 0 there and keeps the
uncompressed payload in `PackChunk.payload` instead. -/
structure DataChunkHeader where
  fileCount : Nat
  uncompressedSize : Nat
  compressedSize : Nat
  indexSize : Nat
  indexHashIterations : Nat
  fileTableSize : Nat
  extraSize : Nat
deriving DecidableEq, Repr

/-- One chunk as it reaches the pack file: header, raw bloom-filter bytes,
and the payload (on disk the payload is LZ4-HC compressed; the reader model
below consumes it through `decompressPartial`). -/
structure PackChunk where
  header : DataChunkHeader
  index : List Byte
  payload : List Byte
deriving DecidableEq, Repr

/-- `writeChunk` (build.cpp:430-451).  `DataChunkHeader header = {}` value-
initializes every field to zero; the function then assigns `fileCount`,
`uncompressedSize`, `compressedSize`, `indexSize` and `indexHashIterations`
and never assigns `fileTableSize` or `extraSize`, so both are written as 0. -/
def writeChunk (chunk : Chunk) : PackChunk :=
  let data := prepareChunkData chunk
  let index := prepareChunkIndex chunk
  { header :=
      { fileCount := chunk.files.length
        uncompressedSize := data.length
        compressedSize := 0
        indexSize := index.1.length
        indexHashIterations := index.2
        fileTableSize := 0
        extraSize := 0 }
    index := index.1
    payload := data }

/-- The chunks a builder run writes to the pack, in emission order. -/
def packChunks (size : Nat) (ops : List AppendOp) : List PackChunk :=
  ((runBuilder size ops).chunks).map writeChunk

/-- The length of the payload region that holds the file table plus all name
bytes: per spec section 3 this is the prefix a reader must decompress to see
every table entry and every name (`file_table_size`'s documented value). -/
def fileTableRegionSize (chunk : Chunk) : Nat :=
  40 * chunk.files.length + getChunkNameTotalSize chunk

/-! ## The pack-metadata reader (watch.cpp:76-126) -/

/-- A `(path, mtime, size)` record (`FileInfo` of `files.hpp`, used by
watch.cpp for both the scanned project and the pack metadata). -/
structure FileInfo where
  path : List Byte
  timeStamp : Nat
  fileSize : Nat
deriving DecidableEq, Repr

/-- Modelled from the spec: `decompressPartial(out, outCap, in, inSize,
prefixLen)` (`compression.hpp`, outside the two sources; spec sections 4.2
and 6) is the external LZ4 collaborator that decompresses only the first
`prefixLen` bytes of the payload into a freshly allocated buffer of
`uncompressedSize` bytes; the bytes past the decompressed prefix are
unspecified, modelled here as 0. -/
def decompressPartial (payload : List Byte) (uncompressedSize prefixLen : Nat) :
    List Byte :=
  payload.take prefixLen ++ List.replicate (uncompressedSize - prefixLen) 0

/-- A `uint32_t` read back from four little-endian memory bytes at `off`. -/
def deserialize32 (buf : List Byte) (off : Nat) : Nat :=
  buf.getD off 0 + 256 * buf.getD (off + 1) 0 +
    65536 * buf.getD (off + 2) 0 + 16777216 * buf.getD (off + 3) 0

/-- A `uint64_t` read back from eight little-endian memory bytes at `off`. -/
def deserialize64 (buf : List Byte) (off : Nat) : Nat :=
  deserialize32 buf off + 4294967296 * deserialize32 buf (off + 4)

/-- The `reinterpret_cast<const DataChunkFileHeader*>(data)[i]` read of
`processChunk` (watch.cpp:78-82). -/
def readEntry (buf : List Byte) (i : Nat) : DataChunkFileHeader :=
  let base := 40 * i
  ⟨deserialize32 buf base, deserialize32 buf (base + 4),
   deserialize32 buf (base + 8), deserialize32 buf (base + 12),
   deserialize32 buf (base + 16), deserialize32 buf (base + 20),
   deserialize64 buf (base + 24), deserialize64 buf (base + 32)⟩

/-- `processChunk(result, data, fileCount)` (watch.cpp:76-87): for every
file-table entry with `startLine == 0` emit the name bytes at its
`nameOffset` and its `timeStamp` and `fileSize`. -/
def processChunk (buf : List Byte) (fileCount : Nat) : List FileInfo :=
  (List.range fileCount).filterMap fun i =>
    let e := readEntry buf i
    if e.startLine = 0 then
      some ⟨(buf.drop e.nameOffset).take e.nameLength, e.timeStamp, e.fileSize⟩
    else none

/-- The chunk-loop body of `getDataFileList` (watch.cpp:107-123): skip
`extraSize` and `indexSize` bytes, read the compressed payload, decompress
only the first `fileTableSize` bytes of it, and scan the file table. -/
def scanPackChunk (pc : PackChunk) : List FileInfo :=
  let uncompressed :=
    decompressPartial pc.payload pc.header.uncompressedSize pc.header.fileTableSize
  processChunk uncompressed pc.header.fileCount

/-- `getDataFileList` (watch.cpp:89-126) applied to the pack a builder run
produced: the `(path, mtime, size)` list the watcher diffs against. -/
def getDataFileList (size : Nat) (ops : List AppendOp) : List FileInfo :=
  ((packChunks size ops).map scanPackChunk).flatten

/-! ## The startup diff (watch.cpp:128-158) -/

/-- `std::string::operator<`: lexicographic byte comparison. -/
def pathLt : List Byte → List Byte → Bool
  | [], [] => false
  | [], _ :: _ => true
  | _ :: _, [] => false
  | a :: as, b :: bs => if a < b then true else if b < a then false else pathLt as bs

/-- The inner `while (fileIt < files.size() && files[fileIt].path < pf.path)`
loop of `getChanges` (watch.cpp:136-140): push every current path smaller
than `p` and return it with the unconsumed remainder of `files`. -/
def spanLt (p : List Byte) : List FileInfo → List (List Byte) × List FileInfo
  | [] => ([], [])
  | f :: fs =>
    if pathLt f.path p then
      let r := spanLt p fs
      (f.path :: r.1, r.2)
    else
      ([], f :: fs)

/-- `getChanges(files, packFiles)` (watch.cpp:128-158) as a recursion over
the pack list (the outer `for (pf : packFiles)` loop):

* `files, []` - the outer loop is over; the trailing while loop
  (watch.cpp:151-155) pushes every remaining current file.
* `files, pf :: rest` - run the inner while loop (`spanLt`); if it stopped
  because `fileIt == files.size()`, the unguarded comparison
  `files[fileIt].path == pf.path` (watch.cpp:142) indexes one past the end
  of `files`: undefined behaviour, modelled as `none`.  Otherwise the
  equality check either consumes the matching file (pushing its path when
  mtime or size differ) or leaves `fileIt` alone for the next pack entry. -/
def getChangesGo : List FileInfo → List FileInfo → Option (List (List Byte))
  | files, [] => some (files.map (fun f => f.path))
  | files, pf :: rest =>
    let s := spanLt pf.path files
    match s.2 with
    | [] => none
    | f :: fs =>
      if f.path = pf.path then
        if f.timeStamp ≠ pf.timeStamp ∨ f.fileSize ≠ pf.fileSize then
          (getChangesGo fs rest).map (fun r => s.1 ++ f.path :: r)
        else
          (getChangesGo fs rest).map (fun r => s.1 ++ r)
      else
        (getChangesGo (f :: fs) rest).map (fun r => s.1 ++ r)

/-- `getChanges` (watch.cpp:128-158); `none` records the out-of-bounds read. -/
def getChanges (files packFiles : List FileInfo) : Option (List (List Byte)) :=
  getChangesGo files packFiles

/-! ## Specification-side definitions for the diff -/

/-- Spec-side lookup of a path among the pack entries (first match). -/
def specLookup : List FileInfo → List Byte → Option FileInfo
  | [], _ => none
  | pf :: rest, p => if pf.path = p then some pf else specLookup rest p

/-- Spec-side: a current file is changed when its path is absent from the
pack or present with a different mtime or size. -/
def changedFlag (pack : List FileInfo) (f : FileInfo) : Bool :=
  match specLookup pack f.path with
  | none => true
  | some pf => decide (f.timeStamp ≠ pf.timeStamp ∨ f.fileSize ≠ pf.fileSize)

/-- Spec-side diff: the changed current files' paths, in current-list order. -/
def specDiff (files pack : List FileInfo) : List (List Byte) :=
  (files.filter (changedFlag pack)).map (fun f => f.path)

/-- Strictly ascending path order (adjacent comparison). -/
def pathsSorted : List FileInfo → Bool
  | [] => true
  | [_] => true
  | a :: b :: rest => pathLt a.path b.path && pathsSorted (b :: rest)

/-- Every pack entry's path is ≤ some current file's path: exactly the
condition under which the unguarded `files[fileIt]` access of
`getChanges` stays in bounds. -/
def packCovered (files pack : List FileInfo) : Prop :=
  ∀ pf ∈ pack, ∃ f ∈ files, pathLt f.path pf.path = false

instance (files pack : List FileInfo) : Decidable (packCovered files pack) := by
  unfold packCovered
  infer_instance

/-! ## Specification-side definitions for the index claims -/

/-- The claim's hash count: `round(ln 2 * m / n)` with `m = indexSize * 8`
bits and `n` distinct ngrams, clamped to `[1, 16]`, and `1` when `n = 0`
(spec section 4.1). -/
noncomputable def claimedIterations (indexSize itemCount : Nat) : ℤ :=
  if itemCount = 0 then 1
  else min 16 (max 1
    (round (Real.log 2 * (8 * (indexSize : ℝ)) / (itemCount : ℝ))))

/-- The chunk-budget property (claim C6, as the code enforces it): an emitted
chunk is never empty, and its content bytes stay within the budget except
when it is a single fragment whose first line (`skipOneLine` over its bytes)
exceeds the budget. -/
def chunkOK (size : Nat) (ch : Chunk) : Prop :=
  ch.files ≠ [] ∧
    (ch.totalSize ≤ size ∨
      ∃ f, ch.files = [f] ∧ size < skipOneLine f.contents.data f.contents.size)

/-- The builder's bookkeeping invariant: the `pendingSize` field mirrors the
content bytes of the queued fragments. -/
def pendingInv (st : BuilderState) : Prop :=
  st.pendingSize = sumSizes st.pendingFiles

instance (st : BuilderState) : Decidable (pendingInv st) := by
  unfold pendingInv; infer_instance

/-- Line alignment of one fragment (claim C7): a fragment whose storage is
the whole source file is well formed, its `startLine` counts the newlines
before its view, and when `startLine > 0` and the fragment is non-empty the
byte just before the view is a newline. -/
def goodFrag (f : File) : Prop :=
  f.contents.wf ∧
    (f.contents.count ≠ 0 →
      f.startLine = countNl (f.contents.storage.take f.contents.offset) ∧
      (0 < f.startLine → 0 < f.contents.offset ∧
        f.contents.storage.getD (f.contents.offset - 1) 0 = 10))

/-! ## Lemmas about the newline scanners -/

theorem countNl_append (a b : List Byte) :
    countNl (a ++ b) = countNl a + countNl b := by
  induction a with
  | nil => simp [countNl]
  | cons x xs ih => simp [countNl, ih]; omega

theorem firstNlIdx_eq_none {l : List Byte} (h : firstNlIdx l = none) : 10 ∉ l := by
  induction l with
  | nil => simp
  | cons b rest ih =>
    by_cases hb : b = 10
    · simp [firstNlIdx, hb] at h
    · simp [firstNlIdx, hb, Option.map_eq_none] at h
      intro hmem
      rcases List.mem_cons.1 hmem with h1 | h2
      · exact hb h1.symm
      · exact ih h h2

theorem countNl_eq_zero {l : List Byte} (h : 10 ∉ l) : countNl l = 0 := by
  induction l with
  | nil => simp [countNl]
  | cons b rest ih =>
    simp at h
    simp [countNl, Ne.symm h.1, ih h.2]

theorem firstNlIdx_lt_length {l : List Byte} {i : Nat}
    (h : firstNlIdx l = some i) : i < l.length := by
  induction l generalizing i with
  | nil => simp [firstNlIdx] at h
  | cons b rest ih =>
    by_cases hb : b = 10
    · simp [firstNlIdx, hb] at h
      simp only [List.length_cons]
      omega
    · simp [firstNlIdx, hb] at h
      obtain ⟨j, hj, rfl⟩ := h
      have := ih hj
      simp only [List.length_cons]
      omega

theorem firstNlIdx_getD {l : List Byte} {i : Nat}
    (h : firstNlIdx l = some i) : l.getD i 0 = 10 := by
  induction l generalizing i with
  | nil => simp [firstNlIdx] at h
  | cons b rest ih =>
    by_cases hb : b = 10
    · simp [firstNlIdx, hb] at h
      simp [← h, hb]
    · simp [firstNlIdx, hb] at h
      obtain ⟨j, hj, rfl⟩ := h
      simpa using ih hj

theorem firstNlIdx_countNl_take {l : List Byte} {i : Nat}
    (h : firstNlIdx l = some i) : countNl (l.take (i + 1)) = 1 := by
  induction l generalizing i with
  | nil => simp [firstNlIdx] at h
  | cons b rest ih =>
    by_cases hb : b = 10
    · simp [firstNlIdx, hb] at h
      have : 10 ∉ rest.take 0 := by simp
      simp [← h, countNl, hb]
    · simp [firstNlIdx, hb] at h
      obtain ⟨j, hj, rfl⟩ := h
      simp [countNl, hb, ih hj]

theorem firstNlIdx_not_mem_take {l : List Byte} {i : Nat}
    (h : firstNlIdx l = some i) : 10 ∉ l.take i := by
  induction l generalizing i with
  | nil => simp
  | cons b rest ih =>
    by_cases hb : b = 10
    · simp [firstNlIdx, hb] at h
      simp [← h]
    · simp [firstNlIdx, hb] at h
      obtain ⟨j, hj, rfl⟩ := h
      simp only [List.take_succ_cons, List.mem_cons, not_or]
      exact ⟨fun h => hb h.symm, ih hj⟩

theorem firstNlIdx_ge {l : List Byte} {n i : Nat}
    (hn : 10 ∉ l.take n) (h : firstNlIdx l = some i) : n ≤ i := by
  by_contra hlt
  push_neg at hlt
  exact hn (List.mem_take_iff_getElem.2 ⟨i, by
    have h1 := firstNlIdx_lt_length h
    have h2 := firstNlIdx_getD h
    refine ⟨by omega, ?_⟩
    rw [List.getD_eq_getElem?_getD] at h2
    rw [List.getElem?_eq_getElem h1] at h2
    simpa using h2⟩)

theorem firstNlIdx_take_of_lt {l : List Byte} {i k : Nat}
    (h : firstNlIdx l = some i) (hk : i < k) : firstNlIdx (l.take k) = some i := by
  induction l generalizing i k with
  | nil => simp [firstNlIdx] at h
  | cons b rest ih =>
    obtain ⟨k, rfl⟩ : ∃ k', k = k' + 1 := ⟨k - 1, by omega⟩
    by_cases hb : b = 10
    · simp [firstNlIdx, hb] at h
      simp [firstNlIdx, hb, ← h]
    · simp [firstNlIdx, hb] at h
      obtain ⟨j, hj, rfl⟩ := h
      have hrec := ih hj (show j < k by omega)
      simp [firstNlIdx, hb, hrec]

theorem firstNlIdx_take_of_none {l : List Byte} {k : Nat}
    (h : firstNlIdx l = none) : firstNlIdx (l.take k) = none := by
  induction l generalizing k with
  | nil => simp [firstNlIdx]
  | cons b rest ih =>
    cases k with
    | zero => simp [firstNlIdx]
    | succ k =>
      by_cases hb : b = 10
      · simp [firstNlIdx, hb] at h
      · simp [firstNlIdx, hb, Option.map_eq_none] at h ⊢
        exact ih h

theorem lastNlIdx_lt_length {l : List Byte} {i : Nat}
    (h : lastNlIdx l = some i) : i < l.length := by
  induction l generalizing i with
  | nil => simp [lastNlIdx] at h
  | cons b rest ih =>
    simp only [lastNlIdx] at h
    cases hrest : lastNlIdx rest with
    | some j =>
      rw [hrest] at h
      simp at h
      have := ih hrest
      simp only [List.length_cons]
      omega
    | none =>
      rw [hrest] at h
      by_cases hb : b = 10 <;> simp [hb] at h
      simp only [List.length_cons]
      omega

theorem lastNlIdx_getD {l : List Byte} {i : Nat}
    (h : lastNlIdx l = some i) : l.getD i 0 = 10 := by
  induction l generalizing i with
  | nil => simp [lastNlIdx] at h
  | cons b rest ih =>
    simp only [lastNlIdx] at h
    cases hrest : lastNlIdx rest with
    | some j =>
      rw [hrest] at h
      simp at h
      subst h
      simpa using ih hrest
    | none =>
      rw [hrest] at h
      by_cases hb : b = 10 <;> simp [hb] at h
      simp [← h, hb]

theorem lastNlIdx_eq_none {l : List Byte} (h : lastNlIdx l = none) : 10 ∉ l := by
  induction l with
  | nil => simp
  | cons b rest ih =>
    simp only [lastNlIdx] at h
    cases hrest : lastNlIdx rest with
    | some j => rw [hrest] at h; simp at h
    | none =>
      rw [hrest] at h
      by_cases hb : b = 10
      · simp [hb] at h
      · intro hmem
        rcases List.mem_cons.1 hmem with h1 | h2
        · exact hb h1.symm
        · exact ih hrest h2

theorem lastNlIdx_countNl_take {l : List Byte} {i : Nat}
    (h : lastNlIdx l = some i) : countNl (l.take (i + 1)) = countNl l := by
  induction l generalizing i with
  | nil => simp [lastNlIdx] at h
  | cons b rest ih =>
    simp only [lastNlIdx] at h
    cases hrest : lastNlIdx rest with
    | some j =>
      rw [hrest] at h
      simp at h
      subst h
      simp [countNl, ih hrest]
    | none =>
      rw [hrest] at h
      by_cases hb : b = 10 <;> simp [hb] at h
      have : 10 ∉ rest := lastNlIdx_eq_none hrest
      simp [← h, countNl, hb, countNl_eq_zero this]

theorem getD_take {l : List Byte} {n i : Nat} (h : i < n) :
    (l.take n).getD i 0 = l.getD i 0 := by
  induction l generalizing n i with
  | nil => simp
  | cons b rest ih =>
    cases n with
    | zero => omega
    | succ n =>
      cases i with
      | zero => simp
      | succ i => simpa using ih (by omega)

/-! ## Lemmas about `skipByLines` and `skipOneLine` -/

theorem skipByLines_first_le (data : List Byte) (n : Nat) :
    (skipByLines data n).1 ≤ n := by
  unfold skipByLines
  cases h : lastNlIdx (data.take n) with
  | none => simp
  | some i =>
    have h1 := lastNlIdx_lt_length h
    have h2 : (data.take n).length ≤ n := by simp
    simp
    omega

theorem skipByLines_zero_not_mem {data : List Byte} {n : Nat}
    (h : (skipByLines data n).1 = 0) : 10 ∉ data.take n := by
  unfold skipByLines at h
  cases hl : lastNlIdx (data.take n) with
  | none => exact lastNlIdx_eq_none hl
  | some i => rw [hl] at h; simp at h

theorem skipOneLine_le (data : List Byte) (n : Nat) :
    skipOneLine data n ≤ n := by
  unfold skipOneLine
  cases h : firstNlIdx (data.take n) with
  | none => simp
  | some i =>
    have h1 := firstNlIdx_lt_length h
    have h2 : (data.take n).length ≤ n := by simp
    simp
    omega

theorem skipOneLine_pos {data : List Byte} {n : Nat} (h : 0 < n) :
    0 < skipOneLine data n := by
  unfold skipOneLine
  cases hf : firstNlIdx (data.take n) with
  | none => simpa
  | some i => simp

theorem skipOneLine_gt {data : List Byte} {n ds : Nat}
    (hmem : 10 ∉ data.take n) (hn : n < ds) : n < skipOneLine data ds := by
  unfold skipOneLine
  cases hf : firstNlIdx (data.take ds) with
  | none => simpa
  | some i =>
    have : 10 ∉ (data.take ds).take n := by
      rwa [List.take_take, min_eq_left (le_of_lt hn)]
    have := firstNlIdx_ge this hf
    simp
    omega

/-- A `skipOneLine` cut is self-describing: the emitted prefix of
`skipOneLine data ds` bytes has that same value as its own first-line
length (its only possible newline is its last byte). -/
theorem skipOneLine_take_self (data : List Byte) (ds : Nat) :
    skipOneLine (data.take (skipOneLine data ds)) (skipOneLine data ds) =
      skipOneLine data ds := by
  cases hf : firstNlIdx (data.take ds) with
  | none =>
    have hk : skipOneLine data ds = ds := by unfold skipOneLine; rw [hf]
    rw [hk]
    unfold skipOneLine
    rw [List.take_take, min_self, hf]
  | some i =>
    have hk : skipOneLine data ds = i + 1 := by unfold skipOneLine; rw [hf]
    have hle : i + 1 ≤ ds := by
      have h1 := firstNlIdx_lt_length hf
      have h2 : (data.take ds).length ≤ ds := by simp
      omega
    have h3 : firstNlIdx (data.take (i + 1)) = some i := by
      have h4 := firstNlIdx_take_of_lt hf (show i < i + 1 by omega)
      rwa [List.take_take, min_eq_left hle] at h4
    rw [hk]
    unfold skipOneLine
    rw [List.take_take, min_self, h3]

/-! ## Lemmas about the chunk-cutting loop -/

@[simp] theorem Blob.size_eq (b : Blob) : b.size = b.count := rfl

theorem Blob.data_take (b : Blob) (k : Nat) (hk : k ≤ b.count) :
    (b.storage.drop b.offset).take k = b.data.take k := by
  unfold Blob.data
  rw [List.take_take, min_eq_left hk]

@[simp] theorem sumSizes_nil : sumSizes [] = 0 := rfl

@[simp] theorem sumSizes_cons (f : File) (l : List File) :
    sumSizes (f :: l) = f.contents.size + sumSizes l := by
  simp [sumSizes]

@[simp] theorem appendChunkFile_files (chunk : Chunk) (file : File) :
    (appendChunkFile chunk file).files = chunk.files ++ [file] := rfl

@[simp] theorem appendChunkFile_totalSize (chunk : Chunk) (file : File) :
    (appendChunkFile chunk file).totalSize = chunk.totalSize + file.contents.size := rfl

/-- The three outcomes of `appendChunkFilePrefix`: a line-aligned split within
the budget, the whole-first-line degenerate split into an empty chunk, or no
change (no newline in the budget and a non-empty chunk). -/
theorem appendChunkFilePrefix_eq (chunk : Chunk) (file : File) (n : Nat) :
    (0 < (skipByLines file.contents.data n).1 ∧
      appendChunkFilePrefix chunk file n =
        (⟨chunk.files ++ [(splitPrefix file (skipByLines file.contents.data n).1).1],
          chunk.totalSize + (skipByLines file.contents.data n).1⟩,
         {(splitPrefix file (skipByLines file.contents.data n).1).2 with
            startLine := file.startLine + (skipByLines file.contents.data n).2})) ∨
    ((skipByLines file.contents.data n).1 = 0 ∧ chunk.files = [] ∧
      appendChunkFilePrefix chunk file n =
        (⟨chunk.files ++
            [(splitPrefix file (skipOneLine file.contents.data file.contents.size)).1],
          chunk.totalSize + skipOneLine file.contents.data file.contents.size⟩,
         {(splitPrefix file (skipOneLine file.contents.data file.contents.size)).2 with
            startLine := file.startLine + 1})) ∨
    ((skipByLines file.contents.data n).1 = 0 ∧ chunk.files ≠ [] ∧
      appendChunkFilePrefix chunk file n = (chunk, file)) := by
  unfold appendChunkFilePrefix
  by_cases h1 : 0 < (skipByLines file.contents.data n).1
  · left
    refine ⟨h1, ?_⟩
    simp only [gt_iff_lt, h1, true_or, if_pos, if_true]
    simp [splitPrefix]
  · by_cases h2 : chunk.files = []
    · right; left
      refine ⟨by omega, h2, ?_⟩
      have h1' : ¬(skipByLines file.contents.data n).1 > 0 := h1
      simp only [gt_iff_lt, h1', false_or, h2, if_pos, if_true]
      simp [h1', splitPrefix]
    · right; right
      refine ⟨by omega, h2, ?_⟩
      have : ¬((skipByLines file.contents.data n).1 > 0 ∨ chunk.files = []) := by
        simp [h1, h2]
      simp [this]

theorem fillChunk_total_mono (size : Nat) :
    ∀ (pending : List File) (chunk : Chunk),
      chunk.totalSize ≤ (fillChunk size chunk pending).1.totalSize := by
  intro pending
  induction pending with
  | nil => intro chunk; simp [fillChunk]
  | cons file rest ih =>
    intro chunk
    simp only [fillChunk]
    by_cases hc : chunk.totalSize < size
    · simp only [if_pos hc]
      by_cases hf : file.contents.size ≤ size - chunk.totalSize
      · simp only [if_pos hf]
        have := ih (appendChunkFile chunk file)
        simp only [appendChunkFile_totalSize] at this
        omega
      · simp only [if_neg hf]
        rcases appendChunkFilePrefix_eq chunk file (size - chunk.totalSize) with
          ⟨_, heq⟩ | ⟨_, _, heq⟩ | ⟨_, _, heq⟩ <;> simp [heq]
    · simp [if_neg hc]

theorem fillChunk_files_ext (size : Nat) :
    ∀ (pending : List File) (chunk : Chunk),
      ∃ ext, (fillChunk size chunk pending).1.files = chunk.files ++ ext := by
  intro pending
  induction pending with
  | nil => intro chunk; exact ⟨[], by simp [fillChunk]⟩
  | cons file rest ih =>
    intro chunk
    simp only [fillChunk]
    by_cases hc : chunk.totalSize < size
    · simp only [if_pos hc]
      by_cases hf : file.contents.size ≤ size - chunk.totalSize
      · simp only [if_pos hf]
        obtain ⟨ext, hext⟩ := ih (appendChunkFile chunk file)
        rw [appendChunkFile_files] at hext
        exact ⟨file :: ext, by rw [hext]; simp⟩
      · simp only [if_neg hf]
        rcases appendChunkFilePrefix_eq chunk file (size - chunk.totalSize) with
          ⟨_, heq⟩ | ⟨_, _, heq⟩ | ⟨_, _, heq⟩
        · exact ⟨[(splitPrefix file
              (skipByLines file.contents.data (size - chunk.totalSize)).1).1],
            by rw [heq]⟩
        · exact ⟨[(splitPrefix file
              (skipOneLine file.contents.data file.contents.size)).1],
            by rw [heq]⟩
        · exact ⟨[], by rw [heq]; simp⟩
    · exact ⟨[], by simp [if_neg hc]⟩

theorem fillChunk_conserve (size : Nat) :
    ∀ (pending : List File) (chunk : Chunk),
      sumSizes (fillChunk size chunk pending).2 + (fillChunk size chunk pending).1.totalSize
        = sumSizes pending + chunk.totalSize := by
  intro pending
  induction pending with
  | nil => intro chunk; simp [fillChunk]
  | cons file rest ih =>
    intro chunk
    simp only [fillChunk]
    by_cases hc : chunk.totalSize < size
    · simp only [if_pos hc]
      by_cases hf : file.contents.size ≤ size - chunk.totalSize
      · simp only [if_pos hf]
        have h := ih (appendChunkFile chunk file)
        simp only [appendChunkFile] at h ⊢
        simp only [sumSizes_cons]
        omega
      · simp only [if_neg hf]
        push_neg at hf
        simp only [Blob.size_eq] at hf
        rcases appendChunkFilePrefix_eq chunk file (size - chunk.totalSize) with
          ⟨hpos, heq⟩ | ⟨hzero, hnil, heq⟩ | ⟨hzero, hne, heq⟩
        · have hle : (skipByLines file.contents.data (size - chunk.totalSize)).1 ≤
              size - chunk.totalSize := skipByLines_first_le _ _
          simp [heq, splitPrefix]
          omega
        · have hle : skipOneLine file.contents.data file.contents.size ≤
              file.contents.size := skipOneLine_le _ _
          simp only [Blob.size_eq] at hle
          simp [heq, splitPrefix]
          omega
        · simp [heq]
    · simp [if_neg hc]

theorem fillChunk_budget (size : Nat) :
    ∀ (pending : List File) (chunk : Chunk),
      chunk.totalSize ≤ size → (chunk.files = [] → chunk.totalSize = 0) →
      (fillChunk size chunk pending).1.totalSize ≤ size ∨
      ∃ f, (fillChunk size chunk pending).1.files = [f] ∧
        size < skipOneLine f.contents.data f.contents.size := by
  intro pending
  induction pending with
  | nil =>
    intro chunk h1 _
    exact Or.inl (by simpa [fillChunk] using h1)
  | cons file rest ih =>
    intro chunk h1 h2
    simp only [fillChunk]
    by_cases hc : chunk.totalSize < size
    · simp only [if_pos hc]
      by_cases hf : file.contents.size ≤ size - chunk.totalSize
      · simp only [if_pos hf]
        have hf' : file.contents.count ≤ size - chunk.totalSize := hf
        refine ih (appendChunkFile chunk file) ?_ ?_
        · simp only [appendChunkFile_totalSize, Blob.size_eq]
          omega
        · intro h
          simp only [appendChunkFile_files] at h
          exact absurd h (by simp)
      · simp only [if_neg hf]
        push_neg at hf
        have hf' : size - chunk.totalSize < file.contents.count := hf
        rcases appendChunkFilePrefix_eq chunk file (size - chunk.totalSize) with
          ⟨hpos, heq⟩ | ⟨hzero, hnil, heq⟩ | ⟨hzero, hne, heq⟩
        · left
          have hle : (skipByLines file.contents.data (size - chunk.totalSize)).1 ≤
              size - chunk.totalSize := skipByLines_first_le _ _
          simp [heq]
          omega
        · right
          have htot : chunk.totalSize = 0 := h2 hnil
          have hnmem : 10 ∉ file.contents.data.take size := by
            have h3 := skipByLines_zero_not_mem hzero
            rwa [htot, Nat.sub_zero] at h3
          have hsize : size < file.contents.size := by
            rw [htot, Nat.sub_zero] at hf
            exact hf
          have hgt : size < skipOneLine file.contents.data file.contents.size :=
            skipOneLine_gt hnmem hsize
          have hskle : skipOneLine file.contents.data file.contents.size ≤
              file.contents.size := skipOneLine_le _ _
          refine ⟨(splitPrefix file (skipOneLine file.contents.data file.contents.size)).1,
            by rw [heq]; simp [hnil], ?_⟩
          have hpresize : (splitPrefix file
              (skipOneLine file.contents.data file.contents.size)).1.contents.size
              = skipOneLine file.contents.data file.contents.size := rfl
          have hpre : (splitPrefix file
              (skipOneLine file.contents.data file.contents.size)).1.contents.data
              = file.contents.data.take
                  (skipOneLine file.contents.data file.contents.size) :=
            Blob.data_take file.contents _ hskle
          rw [hpresize, hpre,
            skipOneLine_take_self file.contents.data file.contents.size]
          exact hgt
        · left
          simp [heq]
          omega
    · left
      simp [if_neg hc]
      omega

theorem fillChunk_files_nonempty (size : Nat) :
    ∀ (pending : List File) (chunk : Chunk),
      chunk.totalSize < size → pending ≠ [] →
      (fillChunk size chunk pending).1.files ≠ [] := by
  intro pending
  intro chunk hc hne
  cases pending with
  | nil => exact absurd rfl hne
  | cons file rest =>
    simp only [fillChunk, if_pos hc]
    by_cases hf : file.contents.size ≤ size - chunk.totalSize
    · simp only [if_pos hf]
      obtain ⟨ext, hext⟩ := fillChunk_files_ext size rest (appendChunkFile chunk file)
      rw [hext]
      simp [appendChunkFile]
    · simp only [if_neg hf]
      rcases appendChunkFilePrefix_eq chunk file (size - chunk.totalSize) with
        ⟨_, heq⟩ | ⟨_, _, heq⟩ | ⟨_, hne2, heq⟩ <;> simp [heq]
      exact hne2

theorem fillChunk_zero (size : Nat) :
    ∀ (pending : List File) (chunk : Chunk),
      (fillChunk size chunk pending).1.totalSize = chunk.totalSize →
      ∃ k, (fillChunk size chunk pending).1.files.length = chunk.files.length + k ∧
        (fillChunk size chunk pending).2.length + k = pending.length := by
  intro pending
  induction pending with
  | nil => intro chunk _; exact ⟨0, by simp [fillChunk]⟩
  | cons file rest ih =>
    intro chunk htot
    simp only [fillChunk] at htot ⊢
    by_cases hc : chunk.totalSize < size
    · simp only [if_pos hc] at htot ⊢
      by_cases hf : file.contents.size ≤ size - chunk.totalSize
      · simp only [if_pos hf] at htot ⊢
        have hmono := fillChunk_total_mono size rest (appendChunkFile chunk file)
        simp only [appendChunkFile, Blob.size_eq] at hmono htot ⊢
        have htot' : (fillChunk size (appendChunkFile chunk file) rest).1.totalSize =
            (appendChunkFile chunk file).totalSize := by
          simp only [appendChunkFile, Blob.size_eq]
          omega
        obtain ⟨k, hk1, hk2⟩ := ih (appendChunkFile chunk file) htot'
        simp only [appendChunkFile, Blob.size_eq, List.length_append,
          List.length_cons, List.length_nil] at hk1 hk2
        refine ⟨k + 1, ?_, ?_⟩
        · omega
        · simp only [List.length_cons]
          omega
      · simp only [if_neg hf] at htot ⊢
        push_neg at hf
        rcases appendChunkFilePrefix_eq chunk file (size - chunk.totalSize) with
          ⟨hpos, heq⟩ | ⟨hzero, hnil, heq⟩ | ⟨hzero, hne, heq⟩
        · rw [heq] at htot
          simp at htot
          omega
        · rw [heq] at htot
          simp at htot
          have hf2 : size - chunk.totalSize < file.contents.count := hf
          have hp : 0 < skipOneLine file.contents.data file.contents.count :=
            skipOneLine_pos (by omega)
          omega
        · rw [heq]
          exact ⟨0, by simp⟩
    · simp only [if_neg hc] at htot ⊢
      exact ⟨0, by simp⟩

theorem fillChunk_pending_le (size : Nat) :
    ∀ (pending : List File) (chunk : Chunk),
      (fillChunk size chunk pending).2.length ≤ pending.length := by
  intro pending
  induction pending with
  | nil => intro chunk; simp [fillChunk]
  | cons file rest ih =>
    intro chunk
    simp only [fillChunk]
    by_cases hc : chunk.totalSize < size
    · simp only [if_pos hc]
      by_cases hf : file.contents.size ≤ size - chunk.totalSize
      · simp only [if_pos hf]
        have h := ih (appendChunkFile chunk file)
        simp only [appendChunkFile] at h ⊢
        simp only [List.length_cons]
        omega
      · simp only [if_neg hf]
        simp
    · simp [if_neg hc]

/-! ## Lemmas about the builder's flush loops -/

@[simp] theorem sumSizes_append (a b : List File) :
    sumSizes (a ++ b) = sumSizes a + sumSizes b := by
  simp [sumSizes]

@[simp] theorem emptyChunk_files : emptyChunk.files = [] := rfl

@[simp] theorem emptyChunk_totalSize : emptyChunk.totalSize = 0 := rfl

/-- Every chunk the loop emits is non-empty and within the content budget,
except a single file whose first line exceeds the budget (unconditional: it
follows from the cut policy alone). -/
theorem builderLoopF_chunks (size threshold : Nat) :
    ∀ (fuel : Nat) (pending : List File) (ps : Nat),
      ∀ ch ∈ (builderLoopF size threshold fuel pending ps).1,
        ch.files ≠ [] ∧
          (ch.totalSize ≤ size ∨
            ∃ f, ch.files = [f] ∧ size < skipOneLine f.contents.data f.contents.size) := by
  intro fuel
  induction fuel with
  | zero => intro pending ps ch hch; simp [builderLoopF] at hch
  | succ fuel ih =>
    intro pending ps ch hch
    simp only [builderLoopF] at hch
    by_cases hlt : ps < threshold
    · simp [if_pos hlt] at hch
    · simp only [if_neg hlt, flushChunkStep, List.mem_append] at hch
      rcases hch with hch | hch
      · by_cases hnil : (fillChunk size emptyChunk pending).1.files = []
        · simp [hnil] at hch
        · simp only [if_neg hnil, List.mem_singleton] at hch
          subst hch
          refine ⟨hnil, ?_⟩
          exact fillChunk_budget size pending emptyChunk (by simp [emptyChunk])
            (fun _ => rfl)
      · exact ih _ _ ch hch

/-- While `pendingSize` mirrors the queued content bytes and the loop has
fuel `sumSizes pending + pending.length + 1` or more, the loop runs to its
real exit: the final `pendingSize` again mirrors the final queue, it is below
the threshold, and the emitted chunks account for every removed byte. -/
theorem builderLoopF_drain (size threshold : Nat) (hsize : 0 < size)
    (hth : 0 < threshold) :
    ∀ (fuel : Nat) (pending : List File) (ps : Nat), ps = sumSizes pending →
      sumSizes pending + pending.length < fuel →
      (builderLoopF size threshold fuel pending ps).2.2 =
          sumSizes (builderLoopF size threshold fuel pending ps).2.1 ∧
        (builderLoopF size threshold fuel pending ps).2.2 < threshold ∧
        ((builderLoopF size threshold fuel pending ps).1.map Chunk.totalSize).sum +
            (builderLoopF size threshold fuel pending ps).2.2 = ps := by
  intro fuel
  induction fuel with
  | zero => intro pending ps hps hfuel; omega
  | succ fuel ih =>
    intro pending ps hps hfuel
    simp only [builderLoopF]
    by_cases hlt : ps < threshold
    · simp only [if_pos hlt]
      exact ⟨hps, hlt, by simp⟩
    · simp only [if_neg hlt, flushChunkStep]
      have hpos : 0 < sumSizes pending := by omega
      have hne : pending ≠ [] := by
        intro h
        rw [h] at hpos
        simp at hpos
      have hcons := fillChunk_conserve size pending emptyChunk
      simp only [emptyChunk_totalSize] at hcons
      have hnonempty : (fillChunk size emptyChunk pending).1.files ≠ [] :=
        fillChunk_files_nonempty size pending emptyChunk (by simpa using hsize) hne
      have hple := fillChunk_pending_le size pending emptyChunk
      have hmeasure : sumSizes (fillChunk size emptyChunk pending).2 +
          (fillChunk size emptyChunk pending).2.length < fuel := by
        by_cases hz : (fillChunk size emptyChunk pending).1.totalSize = 0
        · obtain ⟨k, hk1, hk2⟩ := fillChunk_zero size pending emptyChunk
            (by simpa using hz)
          simp only [emptyChunk_files, List.length_nil] at hk1
          have hkpos : 0 < k := by
            rcases List.exists_cons_of_ne_nil hnonempty with ⟨f, fs, hffs⟩
            rw [hffs] at hk1
            simp at hk1
            omega
          omega
        · omega
      have hps' : ps - (fillChunk size emptyChunk pending).1.totalSize =
          sumSizes (fillChunk size emptyChunk pending).2 := by omega
      have := ih (fillChunk size emptyChunk pending).2
        (ps - (fillChunk size emptyChunk pending).1.totalSize) hps' hmeasure
      refine ⟨this.1, this.2.1, ?_⟩
      by_cases hnil : (fillChunk size emptyChunk pending).1.files = []
      · exact absurd hnil hnonempty
      · simp only [if_neg hnil, List.map_append, List.sum_append, List.map_cons,
          List.sum_cons, List.map_nil, List.sum_nil]
        have h3 := this.2.2
        omega

/-! ## Builder-state level lemmas -/

theorem appendFilePart_pendingInv (size : Nat) (hsize : 0 < size)
    (st : BuilderState) (path : List Byte) (startLine : Nat) (data : List Byte)
    (lastWriteTime fileSize : Nat) (h : pendingInv st) :
    pendingInv (appendFilePart size st path startLine data lastWriteTime fileSize) := by
  unfold pendingInv at h ⊢
  unfold appendFilePart builderLoop
  have hsum : st.pendingSize + data.length =
      sumSizes (st.pendingFiles ++
        [⟨path, Blob.ofList data, startLine, fileSize, lastWriteTime⟩]) := by
    simp [h, Blob.ofList]
  have hd := builderLoopF_drain size (2 * size) hsize (by omega)
    (st.pendingSize + data.length +
      (st.pendingFiles ++
        ([⟨path, Blob.ofList data, startLine, fileSize, lastWriteTime⟩] :
          List File)).length + 1)
    (st.pendingFiles ++ [⟨path, Blob.ofList data, startLine, fileSize, lastWriteTime⟩])
    (st.pendingSize + data.length) hsum (by omega)
  exact hd.1

theorem flush_pendingInv (size : Nat) (hsize : 0 < size) (st : BuilderState)
    (h : pendingInv st) : pendingInv (flush size st) := by
  unfold pendingInv at h ⊢
  unfold flush builderLoop
  have hd := builderLoopF_drain size 1 hsize (by omega)
    (st.pendingSize + st.pendingFiles.length + 1) st.pendingFiles st.pendingSize h
    (by omega)
  exact hd.1

/-- `flush` drains the queue: the final `pendingSize` is zero and the newly
emitted chunks hold exactly the queued content bytes. -/
theorem flush_drain (size : Nat) (hsize : 0 < size) (st : BuilderState)
    (h : pendingInv st) :
    (flush size st).pendingSize = 0 ∧
      ((flush size st).chunks.map Chunk.totalSize).sum =
        (st.chunks.map Chunk.totalSize).sum + st.pendingSize := by
  unfold pendingInv at h
  unfold flush builderLoop
  have hd := builderLoopF_drain size 1 hsize (by omega)
    (st.pendingSize + st.pendingFiles.length + 1) st.pendingFiles st.pendingSize h
    (by omega)
  dsimp only
  refine ⟨by omega, ?_⟩
  simp only [List.map_append, List.sum_append]
  omega

/-- All chunks of a builder run satisfy the budget property (the run only
adds chunks through the two flush loops). -/
theorem runBuilder_chunkOK (size : Nat) (ops : List AppendOp) :
    ∀ ch ∈ (runBuilder size ops).chunks, chunkOK size ch := by
  have hfold : ∀ (ops : List AppendOp) (st : BuilderState),
      (∀ ch ∈ st.chunks, chunkOK size ch) →
      ∀ ch ∈ (ops.foldl (fun st op =>
        appendFilePart size st op.path op.startLine op.data op.lastWriteTime
          op.fileSize) st).chunks, chunkOK size ch := by
    intro ops
    induction ops with
    | nil => intro st h; exact h
    | cons op rest ih =>
      intro st h
      simp only [List.foldl_cons]
      refine ih _ ?_
      intro ch hch
      unfold appendFilePart builderLoop at hch
      simp only [List.mem_append] at hch
      rcases hch with hch | hch
      · exact h ch hch
      · exact builderLoopF_chunks size (2 * size) _ _ _ ch hch
  intro ch hch
  unfold runBuilder flush builderLoop at hch
  simp only [List.mem_append] at hch
  rcases hch with hch | hch
  · exact hfold ops initialBuilder (by simp [initialBuilder]) ch hch
  · exact builderLoopF_chunks size 1 _ _ _ ch hch

/-! ## Payload and header size lemmas -/

theorem serializeEntry_length (e : DataChunkFileHeader) :
    (serializeEntry e).length = 40 := rfl

theorem chunkEntries_length :
    ∀ (files : List File) (nameOffset dataOffset : Nat),
      (chunkEntries files nameOffset dataOffset).length = files.length := by
  intro files
  induction files with
  | nil => intro no dofs; rfl
  | cons f rest ih => intro no dofs; simp [chunkEntries, ih]

theorem length_flatten_serialized (es : List DataChunkFileHeader) :
    ((es.map serializeEntry).flatten).length = 40 * es.length := by
  induction es with
  | nil => rfl
  | cons e rest ih =>
    simp only [List.map_cons, List.flatten_cons, List.length_append, ih,
      serializeEntry_length, List.length_cons]
    ring

theorem length_flatten_names (files : List File) :
    ((files.map (fun f => f.name)).flatten).length =
      (files.map (fun f => f.name.length)).sum := by
  induction files with
  | nil => rfl
  | cons f rest ih =>
    simp only [List.map_cons, List.flatten_cons, List.length_append, ih,
      List.sum_cons]

theorem Blob.length_data (b : Blob) (h : b.wf) : b.data.length = b.count := by
  unfold Blob.wf at h
  simp [Blob.data]
  omega

theorem length_flatten_contents (files : List File) (hwf : ∀ f ∈ files, f.wf) :
    ((files.map (fun f => f.contents.data)).flatten).length =
      (files.map (fun f => f.contents.size)).sum := by
  induction files with
  | nil => rfl
  | cons f rest ih =>
    simp only [List.map_cons, List.flatten_cons, List.length_append,
      List.sum_cons]
    rw [ih (fun g hg => hwf g (List.mem_cons_of_mem f hg)),
      Blob.length_data f.contents (hwf f (List.mem_cons_self f rest))]
    simp

/-- The uncompressed payload built by `prepareChunkData` is exactly the
file-table array (40 bytes per entry), all name bytes and all content
bytes. -/
theorem prepareChunkData_length (ch : Chunk) (hwf : ∀ f ∈ ch.files, f.wf) :
    (prepareChunkData ch).length =
      40 * ch.files.length + getChunkNameTotalSize ch + getChunkDataTotalSize ch := by
  unfold prepareChunkData
  simp only [List.length_append, length_flatten_serialized, chunkEntries_length,
    length_flatten_names, length_flatten_contents ch.files hwf]
  unfold getChunkNameTotalSize getChunkDataTotalSize
  ring

theorem writeChunk_uncompressedSize (ch : Chunk) (hwf : ∀ f ∈ ch.files, f.wf) :
    (writeChunk ch).header.uncompressedSize =
      40 * ch.files.length + getChunkNameTotalSize ch + getChunkDataTotalSize ch := by
  unfold writeChunk
  exact prepareChunkData_length ch hwf

theorem writeChunk_indexSize (ch : Chunk) :
    (writeChunk ch).header.indexSize = getChunkIndexSize ch := by
  unfold writeChunk prepareChunkIndex
  by_cases h : getChunkIndexSize ch = 0
  · simp [h]
  · simp [h]

theorem writeChunk_indexHashIterations (ch : Chunk) :
    (writeChunk ch).header.indexHashIterations =
      if getChunkIndexSize ch = 0 then 0
      else getIndexHashIterations (getChunkIndexSize ch) (chunkNgrams ch).length := by
  unfold writeChunk prepareChunkIndex
  by_cases h : getChunkIndexSize ch = 0
  · simp [h]
  · simp [h]

theorem writeChunk_fileTableSize (ch : Chunk) :
    (writeChunk ch).header.fileTableSize = 0 := rfl

/-- The truncating iteration count is always clamped into `[1, 16]`. -/
theorem getIndexHashIterations_bounds (i n : Nat) :
    1 ≤ getIndexHashIterations i n ∧ getIndexHashIterations i n ≤ 16 := by
  unfold getIndexHashIterations
  by_cases h0 : n = 0
  · simp [h0]
  · simp only [h0, if_false]
    by_cases h1 : 693147181 * (i * 8) < 1000000000 * n
    · simp [h1]
    · simp only [h1, if_false]
      by_cases h2 : 16 * 1000000000 * n < 693147181 * (i * 8)
      · simp [h2]
      · simp only [h2, if_false]
        push_neg at h1 h2
        have hden : 0 < 1000000000 * n := by positivity
        constructor
        · exact (Nat.one_le_div_iff hden).2 h1
        · calc 693147181 * (i * 8) / (1000000000 * n)
              ≤ 16 * 1000000000 * n / (1000000000 * n) := by
                exact Nat.div_le_div_right (by omega)
            _ = 16 := by
                rw [mul_assoc]
                exact Nat.mul_div_cancel 16 hden

/-! ## Line-alignment lemmas (claim C7) -/

theorem getD_drop (l : List Byte) :
    ∀ (m i : Nat), (l.drop m).getD i 0 = l.getD (m + i) 0 := by
  induction l with
  | nil => simp
  | cons b rest ih =>
    intro m i
    cases m with
    | zero => simp
    | succ m => simpa [Nat.succ_add] using ih m i

theorem prefix_good (file : File) (s : Nat) (hgood : goodFrag file)
    (hs : s ≤ file.contents.count) (hc : file.contents.count ≠ 0) :
    goodFrag (splitPrefix file s).1 := by
  obtain ⟨hwf, hrest⟩ := hgood
  unfold Blob.wf at hwf
  refine ⟨?_, ?_⟩
  · unfold splitPrefix Blob.wf
    simp only
    omega
  · intro hne
    exact hrest hc

theorem remainder_good (file : File) (s L : Nat) (hgood : goodFrag file)
    (hs1 : 1 ≤ s) (hsc : s ≤ file.contents.count)
    (hL : file.contents.count - s ≠ 0 →
      countNl (file.contents.data.take s) = L)
    (hnl : file.contents.count - s ≠ 0 →
      file.contents.data.getD (s - 1) 0 = 10) :
    goodFrag {(splitPrefix file s).2 with startLine := file.startLine + L} := by
  obtain ⟨hwf, hrest⟩ := hgood
  unfold Blob.wf at hwf
  refine ⟨?_, ?_⟩
  · unfold splitPrefix Blob.wf
    simp only
    omega
  · intro hne
    unfold splitPrefix at hne ⊢
    simp only at hne ⊢
    have hcne : file.contents.count ≠ 0 := by omega
    obtain ⟨hstart, hprev⟩ := hrest hcne
    have hdata_take : (file.contents.storage.drop file.contents.offset).take s =
        file.contents.data.take s := Blob.data_take file.contents s hsc
    constructor
    · rw [List.take_add, countNl_append, ← hstart, hdata_take, hL hne]
    · intro hpos
      refine ⟨by omega, ?_⟩
      have h1 : file.contents.offset + s - 1 = file.contents.offset + (s - 1) := by
        omega
      rw [h1, ← getD_drop]
      have h2 : ((file.contents.storage.drop file.contents.offset).take s).getD
          (s - 1) 0 = (file.contents.storage.drop file.contents.offset).getD
          (s - 1) 0 := getD_take (by omega)
      rw [← h2, hdata_take]
      have h3 : (file.contents.data.take s).getD (s - 1) 0 =
          file.contents.data.getD (s - 1) 0 := getD_take (by omega)
      rw [h3]
      exact hnl hne

/-- In the degenerate branch: the cut length is `skipOneLine` over the whole
fragment; when the remainder is non-empty, the cut ended at the first
newline, whose facts transfer to the original data. -/
theorem skipOneLine_facts (file : File)
    (hne2 : file.contents.count - skipOneLine file.contents.data file.contents.size ≠ 0) :
    countNl (file.contents.data.take
      (skipOneLine file.contents.data file.contents.size)) = 1 ∧
    file.contents.data.getD
      (skipOneLine file.contents.data file.contents.size - 1) 0 = 10 := by
  rcases hfirst : firstNlIdx (file.contents.data.take file.contents.size) with _ | i
  · exfalso
    have h : skipOneLine file.contents.data file.contents.size =
        file.contents.size := by unfold skipOneLine; rw [hfirst]
    rw [h] at hne2
    simp at hne2
  · have hsk_eq : skipOneLine file.contents.data file.contents.size = i + 1 := by
      unfold skipOneLine; rw [hfirst]
    have hic : i + 1 ≤ file.contents.size := by
      have h1 := firstNlIdx_lt_length hfirst
      have h2 : (file.contents.data.take file.contents.size).length ≤
          file.contents.size := by simp
      omega
    constructor
    · have h4 := firstNlIdx_countNl_take hfirst
      rw [List.take_take, min_eq_left hic] at h4
      rw [hsk_eq]
      exact h4
    · have h5 := firstNlIdx_getD hfirst
      have h6 := getD_take (l := file.contents.data) (n := file.contents.size)
        (i := i) (by omega)
      rw [hsk_eq]
      simpa using h6.symm.trans h5

/-- Both results of `appendChunkFilePrefix` keep line alignment: the emitted
prefix (when one is added) and the remainder pushed back to the queue. -/
theorem appendChunkFilePrefix_good (chunk : Chunk) (file : File) (n : Nat)
    (hn : n < file.contents.count) (hgood : goodFrag file) :
    goodFrag (appendChunkFilePrefix chunk file n).2 ∧
    ∀ f ∈ (appendChunkFilePrefix chunk file n).1.files,
      f ∈ chunk.files ∨ goodFrag f := by
  have hcne : file.contents.count ≠ 0 := by omega
  rcases appendChunkFilePrefix_eq chunk file n with
    ⟨hpos, heq⟩ | ⟨hzero, hnil, heq⟩ | ⟨hzero, hne, heq⟩
  · -- split at the last newline inside the budget window
    rcases hlast : lastNlIdx (file.contents.data.take n) with _ | i
    · exfalso
      unfold skipByLines at hpos
      rw [hlast] at hpos
      simp at hpos
    · unfold skipByLines at heq
      rw [hlast] at heq
      simp only at heq
      have hi : i < n := by
        have h1 := lastNlIdx_lt_length hlast
        have h2 : (file.contents.data.take n).length ≤ n := by simp
        omega
      have hs1 : 1 ≤ i + 1 := by omega
      have hsc : i + 1 ≤ file.contents.count := by omega
      rw [heq]
      constructor
      · refine remainder_good file (i + 1) (countNl (file.contents.data.take n))
          hgood hs1 hsc (fun _ => ?_) (fun _ => ?_)
        · have h4 := lastNlIdx_countNl_take hlast
          rwa [List.take_take, min_eq_left (by omega)] at h4
        · have h5 := lastNlIdx_getD hlast
          simpa using (getD_take hi).symm.trans h5
      · intro f hf
        simp only [List.mem_append, List.mem_singleton] at hf
        rcases hf with hf | hf
        · exact Or.inl hf
        · exact Or.inr (hf ▸ prefix_good file (i + 1) hgood hsc hcne)
  · -- degenerate split: the whole first line of the fragment
    rw [heq]
    have hsk_pos : 1 ≤ skipOneLine file.contents.data file.contents.size :=
      skipOneLine_pos (show 0 < file.contents.size from by
        simp only [Blob.size_eq]; omega)
    have hsk_le : skipOneLine file.contents.data file.contents.size ≤
        file.contents.count := skipOneLine_le file.contents.data file.contents.size
    constructor
    · refine remainder_good file (skipOneLine file.contents.data file.contents.size)
        1 hgood hsk_pos hsk_le (fun hne2 => (skipOneLine_facts file hne2).1)
        (fun hne2 => (skipOneLine_facts file hne2).2)
    · intro f hf
      simp only [List.mem_append, List.mem_singleton] at hf
      rcases hf with hf | hf
      · exact Or.inl hf
      · exact Or.inr (hf ▸ prefix_good file _ hgood hsk_le hcne)
  · rw [heq]
    exact ⟨hgood, fun f hf => Or.inl hf⟩

theorem fillChunk_good (size : Nat) :
    ∀ (pending : List File) (chunk : Chunk),
      (∀ f ∈ chunk.files, goodFrag f) → (∀ f ∈ pending, goodFrag f) →
      (∀ f ∈ (fillChunk size chunk pending).1.files, goodFrag f) ∧
      (∀ f ∈ (fillChunk size chunk pending).2, goodFrag f) := by
  intro pending
  induction pending with
  | nil =>
    intro chunk hchunk hpending
    simp only [fillChunk]
    exact ⟨hchunk, by simp⟩
  | cons file rest ih =>
    intro chunk hchunk hpending
    have hfile : goodFrag file := hpending file (List.mem_cons_self _ _)
    have hrest : ∀ f ∈ rest, goodFrag f :=
      fun f hf => hpending f (List.mem_cons_of_mem _ hf)
    simp only [fillChunk]
    by_cases hc : chunk.totalSize < size
    · simp only [if_pos hc]
      by_cases hf : file.contents.size ≤ size - chunk.totalSize
      · simp only [if_pos hf]
        refine ih (appendChunkFile chunk file) ?_ hrest
        intro g hg
        simp only [appendChunkFile_files, List.mem_append, List.mem_singleton] at hg
        rcases hg with hg | hg
        · exact hchunk g hg
        · exact hg ▸ hfile
      · simp only [if_neg hf]
        push_neg at hf
        have hf2 : size - chunk.totalSize < file.contents.count := hf
        obtain ⟨hrem, hpre⟩ :=
          appendChunkFilePrefix_good chunk file (size - chunk.totalSize) hf2 hfile
        refine ⟨?_, ?_⟩
        · intro g hg
          rcases hpre g hg with h | h
          · exact hchunk g h
          · exact h
        · intro g hg
          rcases List.mem_cons.1 hg with h | h
          · exact h ▸ hrem
          · exact hrest g h
    · simp only [if_neg hc]
      exact ⟨hchunk, hpending⟩

theorem builderLoopF_good (size threshold : Nat) :
    ∀ (fuel : Nat) (pending : List File) (ps : Nat),
      (∀ f ∈ pending, goodFrag f) →
      (∀ ch ∈ (builderLoopF size threshold fuel pending ps).1,
        ∀ f ∈ ch.files, goodFrag f) ∧
      (∀ f ∈ (builderLoopF size threshold fuel pending ps).2.1, goodFrag f) := by
  intro fuel
  induction fuel with
  | zero =>
    intro pending ps hpending
    simp only [builderLoopF]
    exact ⟨by simp, hpending⟩
  | succ fuel ih =>
    intro pending ps hpending
    simp only [builderLoopF]
    by_cases hlt : ps < threshold
    · simp only [if_pos hlt]
      exact ⟨by simp, hpending⟩
    · simp only [if_neg hlt, flushChunkStep]
      obtain ⟨hfill1, hfill2⟩ := fillChunk_good size pending emptyChunk (by simp)
        hpending
      obtain ⟨hrec1, hrec2⟩ := ih (fillChunk size emptyChunk pending).2
        (ps - (fillChunk size emptyChunk pending).1.totalSize) hfill2
      refine ⟨?_, hrec2⟩
      intro ch hch
      simp only [List.mem_append] at hch
      rcases hch with hch | hch
      · by_cases hnil : (fillChunk size emptyChunk pending).1.files = []
        · simp [hnil] at hch
        · simp only [if_neg hnil, List.mem_singleton] at hch
          exact hch ▸ hfill1
      · exact hrec1 ch hch

theorem appended_file_good (path : List Byte) (data : List Byte)
    (lastWriteTime fileSize : Nat) :
    goodFrag ⟨path, Blob.ofList data, 0, fileSize, lastWriteTime⟩ := by
  refine ⟨?_, ?_⟩
  · unfold Blob.wf Blob.ofList
    simp
  · intro hne
    refine ⟨by simp [Blob.ofList, countNl], by simp⟩

/-- Every fragment of every chunk a run of whole-file appends emits keeps
line alignment. -/
theorem runBuilder_good (size : Nat) (ops : List AppendOp)
    (hops : ∀ op ∈ ops, op.startLine = 0) :
    ∀ ch ∈ (runBuilder size ops).chunks, ∀ f ∈ ch.files, goodFrag f := by
  have hfold : ∀ (ops : List AppendOp), (∀ op ∈ ops, op.startLine = 0) →
      ∀ (st : BuilderState),
      (∀ ch ∈ st.chunks, ∀ f ∈ ch.files, goodFrag f) →
      (∀ f ∈ st.pendingFiles, goodFrag f) →
      (∀ ch ∈ (ops.foldl (fun st op =>
          appendFilePart size st op.path op.startLine op.data op.lastWriteTime
            op.fileSize) st).chunks, ∀ f ∈ ch.files, goodFrag f) ∧
      (∀ f ∈ (ops.foldl (fun st op =>
          appendFilePart size st op.path op.startLine op.data op.lastWriteTime
            op.fileSize) st).pendingFiles, goodFrag f) := by
    intro ops
    induction ops with
    | nil => intro _ st h1 h2; exact ⟨h1, h2⟩
    | cons op rest ih =>
      intro hops0 st h1 h2
      simp only [List.foldl_cons]
      have hop0 : op.startLine = 0 := hops0 op (List.mem_cons_self _ _)
      refine ih (fun o ho => hops0 o (List.mem_cons_of_mem _ ho)) _ ?_ ?_
      · intro ch hch
        unfold appendFilePart builderLoop at hch
        simp only [List.mem_append] at hch
        rcases hch with hch | hch
        · exact h1 ch hch
        · refine (builderLoopF_good size (2 * size) _ _ _ ?_).1 ch hch
          intro f hf
          simp only [List.mem_append, List.mem_singleton] at hf
          rcases hf with hf | hf
          · exact h2 f hf
          · rw [hf, hop0]
            exact appended_file_good op.path op.data op.lastWriteTime op.fileSize
      · intro f hf
        unfold appendFilePart builderLoop at hf
        refine (builderLoopF_good size (2 * size) _ _ _ ?_).2 f hf
        intro g hg
        simp only [List.mem_append, List.mem_singleton] at hg
        rcases hg with hg | hg
        · exact h2 g hg
        · rw [hg, hop0]
          exact appended_file_good op.path op.data op.lastWriteTime op.fileSize
  intro ch hch
  unfold runBuilder flush builderLoop at hch
  simp only [List.mem_append] at hch
  obtain ⟨hc, hg⟩ := hfold ops hops initialBuilder (by simp [initialBuilder])
    (by simp [initialBuilder])
  rcases hch with hch | hch
  · exact hc ch hch
  · exact (builderLoopF_good size 1 _ _ _ hg).1 ch hch

/-! ## Lexicographic path order lemmas -/

theorem pathLt_irrefl (a : List Byte) : pathLt a a = false := by
  induction a with
  | nil => rfl
  | cons x xs ih => simp [pathLt, ih]

theorem pathLt_ne {a b : List Byte} (h : pathLt a b = true) : a ≠ b := by
  intro heq
  rw [heq, pathLt_irrefl] at h
  exact Bool.noConfusion h

theorem pathLt_antisymm :
    ∀ {a b : List Byte}, pathLt a b = false → pathLt b a = false → a = b := by
  intro a
  induction a with
  | nil =>
    intro b h1 _
    cases b with
    | nil => rfl
    | cons y ys => simp [pathLt] at h1
  | cons x xs ih =>
    intro b h1 h2
    cases b with
    | nil => simp [pathLt] at h2
    | cons y ys =>
      simp only [pathLt] at h1 h2
      by_cases hxy : x < y
      · simp [hxy] at h1
      · by_cases hyx : y < x
        · simp [hyx] at h2
        · have hxy' : x = y := Nat.le_antisymm (Nat.le_of_not_lt hyx)
            (Nat.le_of_not_lt hxy)
          subst hxy'
          simp only [if_neg hxy, if_neg hyx] at h1 h2
          rw [ih h1 h2]

theorem pathLt_trans :
    ∀ {a b c : List Byte}, pathLt a b = true → pathLt b c = true →
      pathLt a c = true := by
  intro a
  induction a with
  | nil =>
    intro b c h1 h2
    cases b with
    | nil => simp [pathLt] at h1
    | cons y ys =>
      cases c with
      | nil => simp [pathLt] at h2
      | cons z zs => rfl
  | cons x xs ih =>
    intro b c h1 h2
    cases b with
    | nil => simp [pathLt] at h1
    | cons y ys =>
      cases c with
      | nil => simp [pathLt] at h2
      | cons z zs =>
        simp only [pathLt] at h1 h2 ⊢
        by_cases hxy : x < y
        · by_cases hyz : y < z
          · simp [Nat.lt_trans hxy hyz]
          · simp only [if_neg hyz] at h2
            by_cases hzy : z < y
            · simp [hzy] at h2
            · have hyz' : y = z := Nat.le_antisymm (Nat.le_of_not_lt hzy)
                (Nat.le_of_not_lt hyz)
              subst hyz'
              simp [hxy]
        · simp only [if_neg hxy] at h1
          by_cases hyx : y < x
          · simp [hyx] at h1
          · have hxy' : x = y := Nat.le_antisymm (Nat.le_of_not_lt hyx)
              (Nat.le_of_not_lt hxy)
            subst hxy'
            simp only [if_neg (Nat.lt_irrefl x)] at h1
            by_cases hyz : x < z
            · simp [hyz]
            · simp only [if_neg hyz] at h2 ⊢
              by_cases hzy : z < x
              · simp [hzy] at h2
              · simp only [if_neg hzy] at h2 ⊢
                exact ih h1 h2

theorem pathLt_total {a b : List Byte} (h : pathLt a b = false) (hne : a ≠ b) :
    pathLt b a = true := by
  cases hba : pathLt b a with
  | true => rfl
  | false => exact absurd (pathLt_antisymm h hba) hne

/-! ## The inner while loop of getChanges -/

theorem spanLt_decompose (p : List Byte) :
    ∀ (files : List FileInfo), ∃ pre,
      files = pre ++ (spanLt p files).2 ∧
      (spanLt p files).1 = pre.map (fun f => f.path) ∧
      ∀ f ∈ pre, pathLt f.path p = true := by
  intro files
  induction files with
  | nil => exact ⟨[], by simp [spanLt]⟩
  | cons f fs ih =>
    by_cases h : pathLt f.path p = true
    · obtain ⟨pre, h1, h2, h3⟩ := ih
      refine ⟨f :: pre, ?_, ?_, ?_⟩
      · simp only [spanLt, if_pos h]
        simpa using h1
      · simp only [spanLt, if_pos h]
        simpa using h2
      · intro g hg
        rcases List.mem_cons.1 hg with hg | hg
        · exact hg ▸ h
        · exact h3 g hg
    · rw [Bool.not_eq_true] at h
      exact ⟨[], by simp [spanLt, h]⟩

theorem spanLt_head_not {p : List Byte} {files : List FileInfo}
    {f : FileInfo} {fs : List FileInfo}
    (h : (spanLt p files).2 = f :: fs) : pathLt f.path p = false := by
  induction files with
  | nil => simp [spanLt] at h
  | cons g gs ih =>
    by_cases hg : pathLt g.path p = true
    · simp only [spanLt, if_pos hg] at h
      exact ih h
    · rw [Bool.not_eq_true] at hg
      simp only [spanLt, if_neg (by simp [hg] : ¬pathLt g.path p = true)] at h
      cases h
      exact hg

theorem spanLt_nil_all {p : List Byte} {files : List FileInfo}
    (h : (spanLt p files).2 = []) : ∀ f ∈ files, pathLt f.path p = true := by
  induction files with
  | nil => simp
  | cons g gs ih =>
    by_cases hg : pathLt g.path p = true
    · simp only [spanLt, if_pos hg] at h
      intro f hf
      rcases List.mem_cons.1 hf with hf | hf
      · exact hf ▸ hg
      · exact ih h f hf
    · rw [Bool.not_eq_true] at hg
      simp only [spanLt, if_neg (by simp [hg] : ¬pathLt g.path p = true)] at h
      exact absurd h (by simp)

/-! ## Sorted-list and lookup lemmas for the diff -/

theorem pathsSorted_tail {a : FileInfo} {l : List FileInfo}
    (h : pathsSorted (a :: l) = true) : pathsSorted l = true := by
  cases l with
  | nil => rfl
  | cons b rest =>
    simp only [pathsSorted, Bool.and_eq_true] at h
    exact h.2

theorem pathsSorted_head_lt {a : FileInfo} {l : List FileInfo}
    (h : pathsSorted (a :: l) = true) :
    ∀ b ∈ l, pathLt a.path b.path = true := by
  induction l generalizing a with
  | nil => simp
  | cons b rest ih =>
    simp only [pathsSorted, Bool.and_eq_true] at h
    intro c hc
    rcases List.mem_cons.1 hc with hc | hc
    · exact hc ▸ h.1
    · exact pathLt_trans h.1 (ih h.2 c hc)

theorem pathsSorted_suffix :
    ∀ {pre l : List FileInfo}, pathsSorted (pre ++ l) = true →
      pathsSorted l = true := by
  intro pre
  induction pre with
  | nil => intro l h; exact h
  | cons a rest ih =>
    intro l h
    exact ih (pathsSorted_tail h)

theorem changedFlag_head (pf : FileInfo) (rest : List FileInfo) (f : FileInfo)
    (h : pf.path = f.path) :
    changedFlag (pf :: rest) f =
      decide (f.timeStamp ≠ pf.timeStamp ∨ f.fileSize ≠ pf.fileSize) := by
  simp [changedFlag, specLookup, h]

theorem changedFlag_cons_ne (pf : FileInfo) (rest : List FileInfo) (f : FileInfo)
    (h : ¬pf.path = f.path) :
    changedFlag (pf :: rest) f = changedFlag rest f := by
  simp [changedFlag, specLookup, h]

theorem changedFlag_of_all_ne (pack : List FileInfo) (f : FileInfo)
    (h : ∀ pf ∈ pack, ¬pf.path = f.path) : changedFlag pack f = true := by
  induction pack with
  | nil => rfl
  | cons pf rest ih =>
    rw [changedFlag_cons_ne pf rest f (h pf (List.mem_cons_self _ _))]
    exact ih fun g hg => h g (List.mem_cons_of_mem _ hg)

theorem specDiff_congr (files : List FileInfo) (p1 p2 : List FileInfo)
    (h : ∀ f ∈ files, changedFlag p1 f = changedFlag p2 f) :
    specDiff files p1 = specDiff files p2 := by
  unfold specDiff
  rw [List.filter_congr h]

theorem specDiff_nil_pack (files : List FileInfo) :
    specDiff files [] = files.map (fun f => f.path) := by
  unfold specDiff
  rw [List.filter_eq_self.2 (fun f _ => by rfl)]

theorem specDiff_append (a b : List FileInfo) (pack : List FileInfo) :
    specDiff (a ++ b) pack = specDiff a pack ++ specDiff b pack := by
  unfold specDiff
  rw [List.filter_append, List.map_append]

theorem specDiff_cons_true (f : FileInfo) (fs : List FileInfo)
    (pack : List FileInfo) (h : changedFlag pack f = true) :
    specDiff (f :: fs) pack = f.path :: specDiff fs pack := by
  unfold specDiff
  rw [List.filter_cons_of_pos h]
  simp

theorem specDiff_cons_false (f : FileInfo) (fs : List FileInfo)
    (pack : List FileInfo) (h : changedFlag pack f = false) :
    specDiff (f :: fs) pack = specDiff fs pack := by
  unfold specDiff
  rw [List.filter_cons_of_neg (by simp [h])]

theorem specDiff_all_true (files : List FileInfo) (pack : List FileInfo)
    (h : ∀ f ∈ files, changedFlag pack f = true) :
    specDiff files pack = files.map (fun f => f.path) := by
  unfold specDiff
  rw [List.filter_eq_self.2 (fun f hf => h f hf)]

/-- The startup diff, on sorted inputs whose pack entries are all covered by
some current path (the condition keeping the unguarded index in bounds),
returns exactly the spec-side diff. -/
theorem getChangesGo_spec :
    ∀ (pack files : List FileInfo),
      pathsSorted files = true → pathsSorted pack = true →
      packCovered files pack →
      getChangesGo files pack = some (specDiff files pack) := by
  intro pack
  induction pack with
  | nil =>
    intro files _ _ _
    simp only [getChangesGo]
    rw [specDiff_nil_pack]
  | cons pf rest ih =>
    intro files hsf hsp hcov
    obtain ⟨pre, hdecomp, hfst, hprelt⟩ := spanLt_decompose pf.path files
    rcases hs2 : (spanLt pf.path files).2 with _ | ⟨f, fs⟩
    · exfalso
      obtain ⟨g, hg, hglt⟩ := hcov pf (List.mem_cons_self _ _)
      rw [spanLt_nil_all hs2 g hg] at hglt
      exact Bool.noConfusion hglt
    · have hfnotlt : pathLt f.path pf.path = false := spanLt_head_not hs2
      rw [hs2] at hdecomp
      have hsf_suffix : pathsSorted (f :: fs) = true := by
        rw [hdecomp] at hsf
        exact pathsSorted_suffix hsf
      have hsp_rest : pathsSorted rest = true := pathsSorted_tail hsp
      have hpf_lt_rest : ∀ r ∈ rest, pathLt pf.path r.path = true :=
        pathsSorted_head_lt hsp
      have hf_lt_fs : ∀ g ∈ fs, pathLt f.path g.path = true :=
        pathsSorted_head_lt hsf_suffix
      have hpre_flag : ∀ g ∈ pre, changedFlag (pf :: rest) g = true := by
        intro g hg
        refine changedFlag_of_all_ne _ _ ?_
        intro q hq heqq
        rcases List.mem_cons.1 hq with hq | hq
        · subst hq
          exact pathLt_ne (hprelt g hg) heqq.symm
        · exact pathLt_ne (pathLt_trans (hprelt g hg) (hpf_lt_rest q hq)) heqq.symm
      have hspec : specDiff files (pf :: rest) =
          (spanLt pf.path files).1 ++ specDiff (f :: fs) (pf :: rest) := by
        conv_lhs => rw [hdecomp]
        rw [specDiff_append, specDiff_all_true pre _ hpre_flag, hfst]
      simp only [getChangesGo]
      rw [hs2]
      by_cases heq : f.path = pf.path
      · have hfs_flag : ∀ g ∈ fs, changedFlag (pf :: rest) g = changedFlag rest g := by
          intro g hg
          refine changedFlag_cons_ne _ _ _ ?_
          intro hpeq
          exact pathLt_ne (hf_lt_fs g hg) (heq ▸ hpeq.symm).symm
        have hrec_eq : specDiff fs (pf :: rest) = specDiff fs rest :=
          specDiff_congr _ _ _ hfs_flag
        have hcov2 : packCovered fs rest := by
          intro pf2 hpf2
          obtain ⟨g, hg, hglt⟩ := hcov pf2 (List.mem_cons_of_mem _ hpf2)
          have hpfpf2 : pathLt pf.path pf2.path = true := hpf_lt_rest pf2 hpf2
          rw [hdecomp] at hg
          rcases List.mem_append.1 hg with hgpre | hgffs
          · exfalso
            rw [pathLt_trans (hprelt g hgpre) hpfpf2] at hglt
            exact Bool.noConfusion hglt
          · rcases List.mem_cons.1 hgffs with hgf | hgfs
            · exfalso
              rw [hgf] at hglt
              rw [heq] at hglt
              rw [hpfpf2] at hglt
              exact Bool.noConfusion hglt
            · exact ⟨g, hgfs, hglt⟩
        have hihfs := ih fs (pathsSorted_tail hsf_suffix) hsp_rest hcov2
        by_cases hdiff : f.timeStamp ≠ pf.timeStamp ∨ f.fileSize ≠ pf.fileSize
        · simp only [if_pos heq, if_pos hdiff, hihfs, Option.map_some']
          rw [hspec, specDiff_cons_true _ _ _ (by
            rw [changedFlag_head _ _ _ heq.symm]
            exact decide_eq_true hdiff), hrec_eq]
        · simp only [if_pos heq, if_neg hdiff, hihfs, Option.map_some']
          rw [hspec, specDiff_cons_false _ _ _ (by
            rw [changedFlag_head _ _ _ heq.symm]
            exact decide_eq_false hdiff), hrec_eq]
      · have hplt : pathLt pf.path f.path = true :=
          pathLt_total hfnotlt (fun h => heq h)
        have hffs_flag : ∀ g ∈ f :: fs,
            changedFlag (pf :: rest) g = changedFlag rest g := by
          intro g hg
          refine changedFlag_cons_ne _ _ _ ?_
          rcases List.mem_cons.1 hg with hgf | hgfs
          · intro hpeq
            exact heq (hgf ▸ hpeq.symm)
          · intro hpeq
            exact pathLt_ne (pathLt_trans hplt (hf_lt_fs g hgfs)) hpeq
        have hrec_eq : specDiff (f :: fs) (pf :: rest) = specDiff (f :: fs) rest :=
          specDiff_congr _ _ _ hffs_flag
        have hcov2 : packCovered (f :: fs) rest := by
          intro pf2 hpf2
          obtain ⟨g, hg, hglt⟩ := hcov pf2 (List.mem_cons_of_mem _ hpf2)
          have hpfpf2 : pathLt pf.path pf2.path = true := hpf_lt_rest pf2 hpf2
          rw [hdecomp] at hg
          rcases List.mem_append.1 hg with hgpre | hgffs
          · exfalso
            rw [pathLt_trans (hprelt g hgpre) hpfpf2] at hglt
            exact Bool.noConfusion hglt
          · exact ⟨g, hgffs, hglt⟩
        have hihffs := ih (f :: fs) hsf_suffix hsp_rest hcov2
        simp only [if_neg heq, hihffs, Option.map_some']
        rw [hspec, hrec_eq]


/-! ## The ten claims -/

/-- Claim C1 (refuted): the claim says every written chunk's
`fileTableSize` header field equals the file-table-plus-names prefix length
of the payload.  `writeChunk` (build.cpp:430-451) value-initializes the
header (`DataChunkHeader header = {}`) and never assigns `fileTableSize`,
so every chunk is written with `fileTableSize = 0`; here a one-file run
whose table-plus-names region is 41 bytes still writes 0. -/
theorem claimC1_fileTableSize_unset :
    (packChunks 4 [⟨[97], 0, [120, 10], 3, 2⟩]).map
      (fun pc => pc.header.fileTableSize) = [0] ∧
    ((runBuilder 4 [⟨[97], 0, [120, 10], 3, 2⟩]).chunks).map
      fileTableRegionSize = [41] := by
  exact ⟨by decide, by decide⟩

/-- Claim C2 (refuted): the claim says scanning the pack returns exactly the
`(name, timestamp, file_size)` triples recorded at append time.  Because the
writer stores `fileTableSize = 0` (claim C1), `getDataFileList` decompresses
a zero-length prefix of the payload and reads the file table out of
unspecified memory (zeros in the model): a one-file run appended as
`(name "aa", mtime 5, size 7)` is read back as `([], 0, 0)`. -/
theorem claimC2_metadata_lost :
    getDataFileList 4 [⟨[97, 97], 0, [120, 10], 5, 7⟩] = [⟨[], 0, 0⟩] ∧
    getDataFileList 4 [⟨[97, 97], 0, [120, 10], 5, 7⟩] ≠ [⟨[97, 97], 5, 7⟩] := by
  exact ⟨by decide, by decide⟩

/-- Claim C3 (refuted): the claim says every `files[fileIt]` access of
`getChanges` (watch.cpp:128-158) is in bounds.  When the pack lists a path
greater than every current path, the inner `while`
(`fileIt < files.size && files[fileIt].path < pf.path`) exhausts the current
list and the subsequent unguarded `files[fileIt].path == pf.path`
(watch.cpp:142) reads past the end; the model returns `none` exactly when
that access is out of bounds. -/
theorem claimC3_out_of_bounds_access :
    getChanges [⟨[97], 1, 2⟩] [⟨[98], 3, 4⟩] = none := by decide

/-- Claim C4 (refuted): the claim says appending one zero-length file and
flushing yields a pack with one chunk holding one entry with
`data_size = 0`.  `appendFilePart` enqueues the empty fragment but adds 0 to
`pendingSize`, and `flush` (build.cpp:119-125) loops only while
`pendingSize > 0`, so it never runs: the run emits no chunk at all and the
empty file is silently dropped. -/
theorem claimC4_empty_file_dropped :
    (runBuilder 8 [⟨[97, 46, 116, 120, 116], 0, [], 11, 0⟩]).chunks = [] ∧
    packChunks 8 [⟨[97, 46, 116, 120, 116], 0, [], 11, 0⟩] = [] := by
  exact ⟨by decide, by decide⟩

/-- Claim C5 (corrected): on sorted inputs the startup diff returns the
current paths that are new or modified, in current order — but only when
every pack path is bounded by some current path (`packCovered`); otherwise
`getChanges` walks past the end of the current list (the model's `none`,
see the counterexample).  Under that amendment the result is exactly
`specDiff`: the paths of current files that are absent from the pack or
present with a different mtime or size, in current-list order; pack-only
paths never appear. -/
theorem claimC5_diff_matches_spec (files pack : List FileInfo)
    (hf : pathsSorted files = true) (hp : pathsSorted pack = true)
    (hcov : packCovered files pack) :
    getChanges files pack = some (specDiff files pack) :=
  getChangesGo_spec pack files hf hp hcov

/-- Witness for claim C5: the spec section 8 scenario — pack
`{a: (1, 10), b: (2, 20)}`, current `{a: (1, 10), b: (3, 20), c: (4, 5)}` —
gives diff `[b, c]`. -/
theorem claimC5_diff_matches_spec_witness :
    pathsSorted [⟨[97], 1, 10⟩, ⟨[98], 3, 20⟩, ⟨[99], 4, 5⟩] = true ∧
    pathsSorted [⟨[97], 1, 10⟩, ⟨[98], 2, 20⟩] = true ∧
    packCovered [⟨[97], 1, 10⟩, ⟨[98], 3, 20⟩, ⟨[99], 4, 5⟩]
      [⟨[97], 1, 10⟩, ⟨[98], 2, 20⟩] ∧
    getChanges [⟨[97], 1, 10⟩, ⟨[98], 3, 20⟩, ⟨[99], 4, 5⟩]
      [⟨[97], 1, 10⟩, ⟨[98], 2, 20⟩] = some [[98], [99]] := by
  refine ⟨by decide, by decide, by decide, ?_⟩
  have h := claimC5_diff_matches_spec
    [⟨[97], 1, 10⟩, ⟨[98], 3, 20⟩, ⟨[99], 4, 5⟩]
    [⟨[97], 1, 10⟩, ⟨[98], 2, 20⟩] (by decide) (by decide) (by decide)
  rw [h]
  decide

/-- Counterexample for claim C5: both lists sorted, but the pack holds a
path (`b`) greater than every current path: the unguarded
`files[fileIt].path == pf.path` reads out of bounds (`none` in the model)
instead of returning the empty diff the claim promises. -/
theorem claimC5_counterexample :
    pathsSorted [⟨[97], 1, 10⟩] = true ∧
    pathsSorted [⟨[97], 1, 10⟩, ⟨[98], 2, 20⟩] = true ∧
    getChanges [⟨[97], 1, 10⟩] [⟨[97], 1, 10⟩, ⟨[98], 2, 20⟩] = none := by
  decide

/-- Claim C6 (corrected): the budget the splitter enforces counts only the
files' content bytes (`chunk.totalSize`, the quantity `flushChunk` compares
against `size`), not the chunk's uncompressed payload, which additionally
holds the 40-byte table entries and the name bytes and therefore exceeds
`CHUNK_SIZE` even for tiny chunks (see the counterexample).  Amended to
content bytes, the invariant holds of every emitted chunk: it is non-empty,
and its content bytes fit the budget except for a single fragment whose
first line alone exceeds it. -/
theorem claimC6_chunk_budget (size : Nat) (ops : List AppendOp)
    (ch : Chunk) (hch : ch ∈ (runBuilder size ops).chunks) :
    ch.files ≠ [] ∧
      (ch.totalSize ≤ size ∨
        ∃ f, ch.files = [f] ∧
          size < skipOneLine f.contents.data f.contents.size) :=
  runBuilder_chunkOK size ops ch hch

/-- Witness for claim C6: a two-byte file in a four-byte budget gives a
single chunk of 2 content bytes, within budget. -/
theorem claimC6_chunk_budget_witness :
    (⟨[⟨[98], ⟨[120, 10], 0, 2⟩, 0, 2, 6⟩], 2⟩ : Chunk) ∈
      (runBuilder 4 [⟨[98], 0, [120, 10], 6, 2⟩]).chunks ∧
    ((⟨[⟨[98], ⟨[120, 10], 0, 2⟩, 0, 2, 6⟩], 2⟩ : Chunk).files ≠ [] ∧
      ((⟨[⟨[98], ⟨[120, 10], 0, 2⟩, 0, 2, 6⟩], 2⟩ : Chunk).totalSize ≤ 4 ∨
        ∃ f, (⟨[⟨[98], ⟨[120, 10], 0, 2⟩, 0, 2, 6⟩], 2⟩ : Chunk).files = [f] ∧
          4 < skipOneLine f.contents.data f.contents.size)) :=
  ⟨by decide, claimC6_chunk_budget 4 [⟨[98], 0, [120, 10], 6, 2⟩]
    ⟨[⟨[98], ⟨[120, 10], 0, 2⟩, 0, 2, 6⟩], 2⟩ (by decide)⟩

/-- Counterexample for claim C6 as stated (uncompressed payload bytes at
most CHUNK_SIZE): with `CHUNK_SIZE = 4`, a four-byte two-line file fits one
chunk whose content bytes are exactly 4, yet its uncompressed payload is
45 bytes (one 40-byte table entry + 1 name byte + 4 content bytes) — and
the chunk is not the permitted degenerate case, since every contained
fragment's first line fits the budget. -/
theorem claimC6_counterexample :
    ∃ ch ∈ (runBuilder 4 [⟨[97], 0, [97, 10, 98, 10], 1, 4⟩]).chunks,
      4 < (writeChunk ch).header.uncompressedSize ∧
        ∀ f ∈ ch.files, skipOneLine f.contents.data f.contents.size ≤ 4 := by
  decide

/-- Claim C7 (corrected): line alignment holds for every NON-EMPTY emitted
fragment: if its `start_line` is positive, the byte just before its view in
the source file's bytes is a newline and `start_line` counts the newlines
before the view.  The claim as stated (every fragment) fails: when a long
line is cut by the `skipOneLine` fallback of `appendChunkFilePrefix`
(build.cpp:237) the code always adds 1 to the remainder's `start_line`, even
when the "line" it skipped ends at end-of-data with no newline, leaving an
empty tail fragment whose `start_line` is neither newline-preceded nor a
newline count (see the counterexample). -/
theorem claimC7_line_alignment (size : Nat) (ops : List AppendOp)
    (hops : ∀ op ∈ ops, op.startLine = 0)
    (ch : Chunk) (hch : ch ∈ (runBuilder size ops).chunks)
    (f : File) (hf : f ∈ ch.files)
    (hne : f.contents.count ≠ 0) (hpos : 0 < f.startLine) :
    0 < f.contents.offset ∧
      f.contents.storage.getD (f.contents.offset - 1) 0 = 10 ∧
      f.startLine = countNl (f.contents.storage.take f.contents.offset) := by
  obtain ⟨hwf, hrest⟩ := runBuilder_good size ops hops ch hch f hf
  obtain ⟨hstart, hprev⟩ := hrest hne
  obtain ⟨ho, hb⟩ := hprev hpos
  exact ⟨ho, hb, hstart⟩

/-- Witness for claim C7: a six-byte two-line file split at the line
boundary after 3 bytes; the tail fragment starts at offset 3 right after
the newline, with `start_line = 1` = the newlines before it. -/
theorem claimC7_line_alignment_witness :
    0 < (⟨[97], ⟨[97, 98, 10, 99, 100, 10], 3, 3⟩, 1, 6, 7⟩ : File).contents.offset ∧
      (⟨[97], ⟨[97, 98, 10, 99, 100, 10], 3, 3⟩, 1, 6, 7⟩ :
          File).contents.storage.getD
        ((⟨[97], ⟨[97, 98, 10, 99, 100, 10], 3, 3⟩, 1, 6, 7⟩ :
          File).contents.offset - 1) 0 = 10 ∧
      (⟨[97], ⟨[97, 98, 10, 99, 100, 10], 3, 3⟩, 1, 6, 7⟩ : File).startLine =
        countNl ((⟨[97], ⟨[97, 98, 10, 99, 100, 10], 3, 3⟩, 1, 6, 7⟩ :
          File).contents.storage.take
          (⟨[97], ⟨[97, 98, 10, 99, 100, 10], 3, 3⟩, 1, 6, 7⟩ :
            File).contents.offset) :=
  claimC7_line_alignment 4 [⟨[97], 0, [97, 98, 10, 99, 100, 10], 7, 6⟩]
    (by decide)
    ⟨[⟨[97], ⟨[97, 98, 10, 99, 100, 10], 3, 3⟩, 1, 6, 7⟩], 3⟩ (by decide)
    ⟨[97], ⟨[97, 98, 10, 99, 100, 10], 3, 3⟩, 1, 6, 7⟩ (by decide)
    (by decide) (by decide)

/-- Counterexample for claim C7 as stated (every fragment): a three-byte
file with no newline is cut by the long-line fallback in a two-byte budget;
the whole data is taken as "one line", `start_line` of the empty tail is
still incremented to 1, and that tail is later emitted: its preceding byte
is `c` (99), not a newline, and no newline precedes it at all. -/
theorem claimC7_counterexample :
    ∃ ch ∈ (runBuilder 2 [⟨[98], 0, [97, 98, 99], 1, 3⟩,
        ⟨[99], 0, [120, 10], 2, 2⟩]).chunks,
      ∃ f ∈ ch.files, 0 < f.startLine ∧
        f.contents.storage.getD (f.contents.offset - 1) 0 ≠ 10 ∧
        f.startLine ≠ countNl (f.contents.storage.take f.contents.offset) := by
  decide

/-- Claim C8 (corrected): the C++ `(unsigned int)(0.693147181 * m / n)` cast
TRUNCATES toward zero, so the hash count is the floor, not the round, of
`ln 2 * m / n` (the counterexample exhibits an input where the two differ).
Amended: the hash count equals the truncated quotient
`floor(0.693147181 * m / n)` clamped to `[1, 16]` (in exact integer
arithmetic, `693147181 * m / 10^9 * n`), which also yields 1 when `n = 0`
(the quotient is then 0 in ℕ and the clamp raises it to 1, matching the
code's explicit `n == 0` branch). -/
theorem claimC8_truncated_formula (indexSize itemCount : Nat) :
    getIndexHashIterations indexSize itemCount =
      max 1 (min 16 (693147181 * (indexSize * 8) / (1000000000 * itemCount))) := by
  unfold getIndexHashIterations
  by_cases h0 : itemCount = 0
  · subst h0
    simp
  · simp only [h0, if_false]
    have hden : 0 < 1000000000 * itemCount := by positivity
    by_cases h1 : 693147181 * (indexSize * 8) < 1000000000 * itemCount
    · rw [if_pos h1]
      have hq : 693147181 * (indexSize * 8) / (1000000000 * itemCount) = 0 :=
        Nat.div_eq_of_lt h1
      omega
    · rw [if_neg h1]
      by_cases h2 : 16 * 1000000000 * itemCount < 693147181 * (indexSize * 8)
      · rw [if_pos h2]
        have hq : 16 ≤ 693147181 * (indexSize * 8) / (1000000000 * itemCount) := by
          refine (Nat.le_div_iff_mul_le hden).2 ?_
          omega
        omega
      · rw [if_neg h2]
        have hq1 : 1 ≤ 693147181 * (indexSize * 8) / (1000000000 * itemCount) :=
          (Nat.one_le_div_iff hden).2 (Nat.le_of_not_lt h1)
        have hq16 : 693147181 * (indexSize * 8) / (1000000000 * itemCount) ≤ 16 := by
          calc 693147181 * (indexSize * 8) / (1000000000 * itemCount)
              ≤ 16 * 1000000000 * itemCount / (1000000000 * itemCount) :=
                Nat.div_le_div_right (by omega)
            _ = 16 := by
                rw [mul_assoc]
                exact Nat.mul_div_cancel 16 hden
        omega

/-- Counterexample for claim C8 as stated (rounding): at
`indexSize = 1024` (m = 8192 bits) and `n = 3300` ngrams,
`ln 2 * 8192 / 3300 = 1.7207...`, whose round is 2, but the code's
truncating cast gives 1. -/
theorem claimC8_counterexample :
    (getIndexHashIterations 1024 3300 : ℤ) ≠ claimedIterations 1024 3300 := by
  have hcode : getIndexHashIterations 1024 3300 = 1 := by decide
  have hlo := Real.log_two_gt_d9
  have hhi := Real.log_two_lt_d9
  have h1 : (3 / 2 : ℝ) ≤ Real.log 2 * (8 * ((1024 : ℕ) : ℝ)) / ((3300 : ℕ) : ℝ) := by
    rw [le_div_iff₀ (by norm_num : (0 : ℝ) < ((3300 : ℕ) : ℝ))]
    push_cast
    nlinarith [hlo]
  have h2 : Real.log 2 * (8 * ((1024 : ℕ) : ℝ)) / ((3300 : ℕ) : ℝ) < 5 / 2 := by
    rw [div_lt_iff₀ (by norm_num : (0 : ℝ) < ((3300 : ℕ) : ℝ))]
    push_cast
    nlinarith [hhi]
  have hround :
      round (Real.log 2 * (8 * ((1024 : ℕ) : ℝ)) / ((3300 : ℕ) : ℝ)) = 2 := by
    rw [round_eq]
    refine Int.floor_eq_iff.2 ⟨?_, ?_⟩
    · push_cast
      linarith
    · push_cast
      linarith
  have hclaim : claimedIterations 1024 3300 = 2 := by
    unfold claimedIterations
    rw [if_neg (by norm_num)]
    rw [hround]
    norm_num
  rw [hcode, hclaim]
  norm_num

/-- Claim C9 (corrected): the sizing threshold the code applies
(`getChunkIndexSize`, build.cpp:366-377) divides the chunk's CONTENT bytes
(`getChunkDataTotalSize`) by 50, not the uncompressed chunk payload, which
also counts the 40-byte table entries and the name bytes; a chunk whose
payload passes the claimed `uncompressed_chunk_size / 50 ≥ 1024` test can
still get `index_size = 0` (see the counterexample).  Amended to content
bytes, the property holds of every emitted chunk: below the threshold the
index is omitted, otherwise `index_size = data_bytes / 50` exactly and the
iteration count is clamped into `[1, 16]`. -/
theorem claimC9_index_sizing (size : Nat) (ops : List AppendOp)
    (ch : Chunk) (hch : ch ∈ (runBuilder size ops).chunks) :
    (getChunkDataTotalSize ch / 50 < 1024 →
      (writeChunk ch).header.indexSize = 0) ∧
    (1024 ≤ getChunkDataTotalSize ch / 50 →
      (writeChunk ch).header.indexSize = getChunkDataTotalSize ch / 50 ∧
        1 ≤ (writeChunk ch).header.indexHashIterations ∧
        (writeChunk ch).header.indexHashIterations ≤ 16) := by
  constructor
  · intro h
    rw [writeChunk_indexSize]
    show (if getChunkDataTotalSize ch / 50 < 1024 then 0
      else getChunkDataTotalSize ch / 50) = 0
    rw [if_pos h]
  · intro h
    have hnz : getChunkIndexSize ch = getChunkDataTotalSize ch / 50 := by
      show (if getChunkDataTotalSize ch / 50 < 1024 then 0
        else getChunkDataTotalSize ch / 50) = getChunkDataTotalSize ch / 50
      rw [if_neg (by omega)]
    have hne : getChunkIndexSize ch ≠ 0 := by omega
    refine ⟨by rw [writeChunk_indexSize, hnz], ?_, ?_⟩
    · rw [writeChunk_indexHashIterations, if_neg hne]
      exact (getIndexHashIterations_bounds _ _).1
    · rw [writeChunk_indexHashIterations, if_neg hne]
      exact (getIndexHashIterations_bounds _ _).2

/-- Witness for claim C9: a three-byte chunk is far below the threshold
(3 / 50 = 0 < 1024), so its index is omitted. -/
theorem claimC9_index_sizing_witness :
    (⟨[⟨[97], ⟨[104, 105, 10], 0, 3⟩, 0, 3, 4⟩], 3⟩ : Chunk) ∈
      (runBuilder 50 [⟨[97], 0, [104, 105, 10], 4, 3⟩]).chunks ∧
    ((getChunkDataTotalSize ⟨[⟨[97], ⟨[104, 105, 10], 0, 3⟩, 0, 3, 4⟩], 3⟩ / 50 < 1024 →
      (writeChunk ⟨[⟨[97], ⟨[104, 105, 10], 0, 3⟩, 0, 3, 4⟩], 3⟩).header.indexSize = 0) ∧
     (1024 ≤ getChunkDataTotalSize ⟨[⟨[97], ⟨[104, 105, 10], 0, 3⟩, 0, 3, 4⟩], 3⟩ / 50 →
      (writeChunk ⟨[⟨[97], ⟨[104, 105, 10], 0, 3⟩, 0, 3, 4⟩], 3⟩).header.indexSize =
        getChunkDataTotalSize ⟨[⟨[97], ⟨[104, 105, 10], 0, 3⟩, 0, 3, 4⟩], 3⟩ / 50 ∧
        1 ≤ (writeChunk ⟨[⟨[97], ⟨[104, 105, 10], 0, 3⟩, 0, 3, 4⟩], 3⟩).header.indexHashIterations ∧
        (writeChunk ⟨[⟨[97], ⟨[104, 105, 10], 0, 3⟩, 0, 3, 4⟩], 3⟩).header.indexHashIterations ≤ 16)) :=
  ⟨by decide, claimC9_index_sizing 50 [⟨[97], 0, [104, 105, 10], 4, 3⟩]
    ⟨[⟨[97], ⟨[104, 105, 10], 0, 3⟩, 0, 3, 4⟩], 3⟩ (by decide)⟩

set_option maxRecDepth 8000 in
/-- Counterexample for claim C9 as stated (thresholding on
`uncompressed_chunk_size`): a file whose NAME is 51230 bytes but whose
content is 10 bytes gives a chunk with uncompressed payload
51280 = 40 + 51230 + 10 bytes, so `uncompressed_chunk_size / 50 = 1025 ≥
1024` and the claim demands a non-empty index — yet the code divides the
10 content bytes by 50 and writes `index_size = 0` (and 0 iterations). -/
theorem claimC9_counterexample :
    (packChunks 100 [⟨List.replicate 51230 97, 0,
        [97, 98, 99, 100, 101, 102, 103, 104, 105, 10], 5, 10⟩]).map
      (fun pc => (pc.header.uncompressedSize, pc.header.indexSize,
        pc.header.indexHashIterations)) = [(51280, 0, 0)] ∧
    1024 ≤ 51280 / 50 := by
  have haux : ∀ name : List Byte,
      (runBuilder 100 [⟨name, 0,
          [97, 98, 99, 100, 101, 102, 103, 104, 105, 10], 5, 10⟩]).chunks =
        [⟨[⟨name, ⟨[97, 98, 99, 100, 101, 102, 103, 104, 105, 10],
          0, 10⟩, 0, 10, 5⟩], 10⟩] := by
    intro name
    simp [runBuilder, appendFilePart, flush, builderLoop, builderLoopF,
      flushChunkStep, fillChunk, initialBuilder, emptyChunk, appendChunkFile,
      Blob.ofList, Blob.size, sumSizes]
  have hrun := haux (List.replicate 51230 97)
  have hwf : ∀ f ∈ ([⟨List.replicate 51230 97,
      ⟨[97, 98, 99, 100, 101, 102, 103, 104, 105, 10], 0, 10⟩,
      0, 10, 5⟩] : List File), f.wf := by
    intro f hf
    simp only [List.mem_singleton] at hf
    subst hf
    unfold File.wf Blob.wf
    decide
  have hname : getChunkNameTotalSize ⟨[⟨List.replicate 51230 97,
      ⟨[97, 98, 99, 100, 101, 102, 103, 104, 105, 10], 0, 10⟩,
      0, 10, 5⟩], 10⟩ = 51230 := by
    simp only [getChunkNameTotalSize, List.map_cons, List.map_nil,
      List.sum_cons, List.sum_nil, List.length_replicate, Nat.add_zero]
  have hdata : getChunkDataTotalSize ⟨[⟨List.replicate 51230 97,
      ⟨[97, 98, 99, 100, 101, 102, 103, 104, 105, 10], 0, 10⟩,
      0, 10, 5⟩], 10⟩ = 10 := by
    simp only [getChunkDataTotalSize, List.map_cons, List.map_nil,
      List.sum_cons, List.sum_nil, Blob.size, Nat.add_zero]
  have hidx : getChunkIndexSize ⟨[⟨List.replicate 51230 97,
      ⟨[97, 98, 99, 100, 101, 102, 103, 104, 105, 10], 0, 10⟩,
      0, 10, 5⟩], 10⟩ = 0 := by
    simp only [getChunkIndexSize, hdata]
    norm_num
  have hu := writeChunk_uncompressedSize ⟨[⟨List.replicate 51230 97,
      ⟨[97, 98, 99, 100, 101, 102, 103, 104, 105, 10], 0, 10⟩,
      0, 10, 5⟩], 10⟩ hwf
  have hisz := writeChunk_indexSize ⟨[⟨List.replicate 51230 97,
      ⟨[97, 98, 99, 100, 101, 102, 103, 104, 105, 10], 0, 10⟩,
      0, 10, 5⟩], 10⟩
  have hit := writeChunk_indexHashIterations ⟨[⟨List.replicate 51230 97,
      ⟨[97, 98, 99, 100, 101, 102, 103, 104, 105, 10], 0, 10⟩,
      0, 10, 5⟩], 10⟩
  rw [hidx] at hisz
  rw [if_pos hidx] at hit
  rw [hname, hdata] at hu
  refine ⟨?_, by norm_num⟩
  unfold packChunks
  rw [hrun]
  simp only [List.map_cons, List.map_nil, List.cons.injEq, Prod.mk.injEq, and_true]
  refine ⟨?_, hisz, hit⟩
  rw [hu]
  norm_num [List.length]

/-- Claim C10 (confirmed): `flush()` drains the builder.  Under the
bookkeeping invariant that `pendingSize` mirrors the queued content bytes
(`pendingInv`, established for every reachable state by
`appendFilePart_pendingInv` / `flush_pendingInv`) and a positive chunk
size, the `while (pendingSize > 0)` loop of build.cpp:119-125 terminates —
the model's fuel, `pendingSize + pending.length + 1`, is proven sufficient —
with `pendingSize = 0`, and the bytes of the emitted chunks grow by exactly
the pending bytes, so every pending byte lands in a chunk. -/
theorem claimC10_flush_drains (size : Nat) (st : BuilderState)
    (hsize : 0 < size) (hinv : pendingInv st) :
    (flush size st).pendingSize = 0 ∧
      ((flush size st).chunks.map Chunk.totalSize).sum =
        (st.chunks.map Chunk.totalSize).sum + st.pendingSize :=
  flush_drain size hsize st hinv

/-- Witness for claim C10: flushing a five-byte pending fragment with a
three-byte chunk size drains the queue into chunks carrying 5 bytes. -/
theorem claimC10_flush_drains_witness :
    0 < 3 ∧
    pendingInv ⟨[⟨[97], Blob.ofList [97, 10, 98, 10, 99], 0, 5, 1⟩], 5, []⟩ ∧
    ((flush 3 ⟨[⟨[97], Blob.ofList [97, 10, 98, 10, 99], 0, 5, 1⟩], 5, []⟩).pendingSize = 0 ∧
      ((flush 3 ⟨[⟨[97], Blob.ofList [97, 10, 98, 10, 99], 0, 5, 1⟩], 5, []⟩).chunks.map
          Chunk.totalSize).sum =
        ((⟨[⟨[97], Blob.ofList [97, 10, 98, 10, 99], 0, 5, 1⟩], 5, []⟩ :
          BuilderState).chunks.map Chunk.totalSize).sum +
          (⟨[⟨[97], Blob.ofList [97, 10, 98, 10, 99], 0, 5, 1⟩], 5, []⟩ :
            BuilderState).pendingSize) :=
  ⟨by decide, by decide, claimC10_flush_drains 3
    ⟨[⟨[97], Blob.ofList [97, 10, 98, 10, 99], 0, 5, 1⟩], 5, []⟩
    (by decide) (by decide)⟩

end Qgrep
